import Mathlib

/-!
Verification of the fractal-tape glyph codec (packages/tape-core) against its
specification.  Shallow embedding: JavaScript `Map`/`Set` objects are modelled
as insertion-ordered association lists, strings as `String`, numbers as
`Nat`/`Int`/`ℚ` (all the arithmetic involved is exact), and the point type of
the Sierpinski address space stores the `y` coordinate as the rational
coefficient of `√3` (every `y` value produced by the code is a rational
multiple of `√3`, and the containment tests only ever form products of two
`y` values, so the embedding is exact).
-/

namespace FractalTape

/-- Glyph dictionary entry (`tape-core`, re-exported from `trainer.ts`):
`{ phrase: string[]; glyph: string; gain?: number }`. -/
structure GlyphEntry where
  phrase : List String
  glyph : String
  gain : Option Int := none
deriving DecidableEq, Repr

/-- Association-list lookup, modelling `Map.prototype.get`. -/
def lookupA {α β : Type} [DecidableEq α] : List (α × β) → α → Option β
  | [], _ => none
  | (k, v) :: rest, key => if k = key then some v else lookupA rest key

/-- Association-list update, modelling `Map.prototype.set`: an existing key is
updated in place, a new key is appended (JavaScript maps keep insertion order). -/
def setA {α β : Type} [DecidableEq α] : List (α × β) → α → β → List (α × β)
  | [], key, value => [(key, value)]
  | (k, v) :: rest, key, value =>
      if k = key then (k, value) :: rest else (k, v) :: setA rest key value

theorem lookupA_setA_self {α β : Type} [DecidableEq α] (l : List (α × β)) (k : α) (v : β) :
    lookupA (setA l k v) k = some v := by
  induction l with
  | nil => simp [setA, lookupA]
  | cons p rest ih =>
      obtain ⟨k1, v1⟩ := p
      by_cases h : k1 = k
      · subst h
        simp [setA, lookupA]
      · simp [setA, h, lookupA, ih]

theorem lookupA_setA_other {α β : Type} [DecidableEq α] (l : List (α × β)) (k k' : α) (v : β)
    (h : k' ≠ k) : lookupA (setA l k v) k' = lookupA l k' := by
  induction l with
  | nil => simp [setA, lookupA, Ne.symm h]
  | cons p rest ih =>
      obtain ⟨k1, v1⟩ := p
      by_cases hp : k1 = k
      · subst hp
        simp [setA, lookupA, Ne.symm h]
      · simp [setA, hp, lookupA, ih]

/-- Prefix trie from `trie.ts`: `{ kids: Map<string, Trie>; glyph?: string }`. -/
inductive Trie where
  | node (glyph : Option String) (kids : List (String × Trie))

/-- Terminal glyph of a trie node. -/
def Trie.glyph : Trie → Option String
  | .node g _ => g

/-- Children map of a trie node. -/
def Trie.kids : Trie → List (String × Trie)
  | .node _ k => k

/-- Child lookup: `node.kids.get(word)`. -/
def Trie.getKid (t : Trie) (w : String) : Option Trie := lookupA t.kids w

/-- Body of the per-entry loop of `build`: walk the phrase, creating missing
nodes (`node.kids.set(word, { kids: new Map() })`), and mark the terminal node
with the glyph (`node.glyph = entry.glyph`, last write wins). -/
def Trie.insertPhrase : Trie → List String → String → Trie
  | .node g kids, [], glyph => .node (some glyph) kids
  | .node g kids, w :: ws, glyph =>
      let child := match lookupA kids w with
        | some c => c
        | none => .node none []
      .node g (setA kids w (child.insertPhrase ws glyph))

/-- Build a trie from glyph entries (`build` in `trie.ts`). -/
def build (entries : List GlyphEntry) : Trie :=
  entries.foldl (fun t e => t.insertPhrase e.phrase e.glyph) (.node none [])

/-- Inner `while (j < words.length)` loop of `encode`: walk the trie as far as
the upcoming words match, remembering the last glyph-bearing node seen as
`lastMatch = { len: j - i + 1, glyph }`; `depth` counts words consumed so far
(that is `j - i`). -/
def walk : Trie → List String → Nat → Option (Nat × String) → Option (Nat × String)
  | _, [], _, best => best
  | t, w :: rest, depth, best =>
      match t.getKid w with
      | none => best
      | some kid =>
          let best2 := match kid.glyph with
            | some g => some (depth + 1, g)
            | none => best
          walk kid rest (depth + 1) best2

/-- Longest-match encoder (`encode` in `trie.ts`): at each scan position use
the longest glyph match if one was found (advance by its length, which is
always at least 1), otherwise emit the single raw word and advance by one. -/
def encode (words : List String) (trie : Trie) : List String :=
  match words with
  | [] => []
  | w :: rest =>
      match walk trie (w :: rest) 0 none with
      | some (len, g) => g :: encode (rest.drop (len - 1)) trie
      | none => w :: encode rest trie
termination_by words.length
decreasing_by
  · simp only [List.length_drop, List.length_cons]; omega
  · simp only [List.length_cons]; omega

theorem encode_nil (trie : Trie) : encode [] trie = [] := by
  simp [encode]

theorem encode_cons (trie : Trie) (w : String) (rest : List String) :
    encode (w :: rest) trie =
      match walk trie (w :: rest) 0 none with
      | some (len, g) => g :: encode (rest.drop (len - 1)) trie
      | none => w :: encode rest trie := by
  rw [encode]

/-- Reverse `glyph → phrase` map built at the start of `decode`
(`glyphToPhrase.set(entry.glyph, entry.phrase)`, last write wins). -/
def glyphToPhrase (entries : List GlyphEntry) : List (String × List String) :=
  entries.foldl (fun m e => setA m e.glyph e.phrase) []

/-- Decoder (`decode` in `trie.ts`): replace each known glyph by its phrase,
pass unknown tokens through unchanged. -/
def decode (tokens : List String) (entries : List GlyphEntry) : List String :=
  (tokens.map (fun t =>
    match lookupA (glyphToPhrase entries) t with
    | some phrase => phrase
    | none => [t])).flatten

theorem decode_nil (entries : List GlyphEntry) : decode [] entries = [] := rfl

theorem decode_cons (entries : List GlyphEntry) (t : String) (ts : List String) :
    decode (t :: ts) entries =
      (match lookupA (glyphToPhrase entries) t with
       | some phrase => phrase
       | none => [t]) ++ decode ts entries := by
  simp [decode]

/-- Specification helper: follow a token path down the trie. -/
def trieAt : Trie → List String → Option Trie
  | t, [] => some t
  | t, w :: ws =>
      match t.getKid w with
      | none => none
      | some kid => trieAt kid ws

/-- Specification helper: the terminal glyph stored at a token path, if any. -/
def glyphAtPath (t : Trie) (path : List String) : Option String :=
  match trieAt t path with
  | none => none
  | some n => n.glyph

/-- Glyph of the last dictionary entry whose phrase is `p` (the trie is built
with last-write-wins, so this is the glyph `build` leaves at path `p`). -/
def lastGlyphOf (entries : List GlyphEntry) (p : List String) : Option String :=
  entries.foldl (fun acc e => if e.phrase = p then some e.glyph else acc) none

/-- Phrase of the last dictionary entry whose glyph is `g` (what `decode`'s
reverse map sends `g` to). -/
def lastPhraseOf (entries : List GlyphEntry) (g : String) : Option (List String) :=
  entries.foldl (fun acc e => if e.glyph = g then some e.phrase else acc) none

theorem glyphAtPath_leaf (p : List String) :
    glyphAtPath (.node none []) p = none := by
  cases p with
  | nil => rfl
  | cons w ws => simp [glyphAtPath, trieAt, Trie.getKid, Trie.kids, lookupA]

theorem glyphAtPath_cons (t : Trie) (kid : Trie) (w : String) (p : List String)
    (h : t.getKid w = some kid) :
    glyphAtPath t (w :: p) = glyphAtPath kid p := by
  simp [glyphAtPath, trieAt, h]

theorem glyphAtPath_cons_none (t : Trie) (w : String) (p : List String)
    (h : t.getKid w = none) :
    glyphAtPath t (w :: p) = none := by
  simp [glyphAtPath, trieAt, h]

theorem insertPhrase_glyphAtPath (p : List String) :
    ∀ (t : Trie) (gl : String) (q : List String),
      glyphAtPath (t.insertPhrase p gl) q =
        if q = p then some gl else glyphAtPath t q := by
  induction p with
  | nil =>
      intro t gl q
      obtain ⟨g, kids⟩ := t
      cases q with
      | nil => simp [Trie.insertPhrase, glyphAtPath, trieAt, Trie.glyph]
      | cons v q' =>
          simp [Trie.insertPhrase, glyphAtPath, trieAt, Trie.getKid, Trie.kids]
  | cons w p' ih =>
      intro t gl q
      obtain ⟨g, kids⟩ := t
      cases q with
      | nil => simp [Trie.insertPhrase, glyphAtPath, trieAt, Trie.glyph]
      | cons v q' =>
          by_cases hv : v = w
          · subst hv
            have hkid : (Trie.node g (setA kids v
                ((match lookupA kids v with
                  | some c => c
                  | none => Trie.node none []).insertPhrase p' gl))).getKid v =
                some ((match lookupA kids v with
                  | some c => c
                  | none => Trie.node none []).insertPhrase p' gl) := by
              simp [Trie.getKid, Trie.kids, lookupA_setA_self]
            rw [Trie.insertPhrase, glyphAtPath_cons _ _ _ _ hkid, ih]
            by_cases hq : q' = p'
            · simp [hq]
            · simp only [hq, if_false, List.cons.injEq, true_and, if_neg hq]
              cases hl : lookupA kids v with
              | some c =>
                  rw [glyphAtPath_cons (Trie.node g kids) c v q'
                    (by simp [Trie.getKid, Trie.kids, hl])]
              | none =>
                  rw [glyphAtPath_cons_none (Trie.node g kids) v q'
                    (by simp [Trie.getKid, Trie.kids, hl])]
                  exact glyphAtPath_leaf q'
          · have hne : (v :: q') ≠ (w :: p') := by simp [hv]
            rw [Trie.insertPhrase, if_neg hne]
            cases hl : lookupA kids v with
            | some c =>
                rw [glyphAtPath_cons _ c v q'
                    (by simp [Trie.getKid, Trie.kids, lookupA_setA_other _ _ _ _ hv, hl]),
                  glyphAtPath_cons (Trie.node g kids) c v q'
                    (by simp [Trie.getKid, Trie.kids, hl])]
            | none =>
                rw [glyphAtPath_cons_none _ v q'
                    (by simp [Trie.getKid, Trie.kids, lookupA_setA_other _ _ _ _ hv, hl]),
                  glyphAtPath_cons_none (Trie.node g kids) v q'
                    (by simp [Trie.getKid, Trie.kids, hl])]

theorem glyphAtPath_foldl_insert (entries : List GlyphEntry) :
    ∀ (t : Trie) (p : List String),
      glyphAtPath (entries.foldl (fun t e => t.insertPhrase e.phrase e.glyph) t) p =
        entries.foldl (fun acc e => if e.phrase = p then some e.glyph else acc)
          (glyphAtPath t p) := by
  induction entries with
  | nil => intro t p; rfl
  | cons e es ih =>
      intro t p
      simp only [List.foldl_cons]
      rw [ih, insertPhrase_glyphAtPath]
      by_cases h : e.phrase = p
      · subst h
        simp
      · have h2 : ¬(p = e.phrase) := fun hc => h hc.symm
        simp [h, h2]

theorem build_glyphAtPath (entries : List GlyphEntry) (p : List String) :
    glyphAtPath (build entries) p = lastGlyphOf entries p := by
  rw [build, glyphAtPath_foldl_insert, glyphAtPath_leaf, lastGlyphOf]

theorem foldl_if_some_stays {α β : Type} (P : α → Prop) [DecidablePred P] (F : α → β) :
    ∀ (l : List α) (v0 : β),
      ∃ v, l.foldl (fun acc e => if P e then some (F e) else acc) (some v0) = some v := by
  intro l
  induction l with
  | nil => intro v0; exact ⟨v0, rfl⟩
  | cons a t ih =>
      intro v0
      by_cases h : P a
      · simpa [h] using ih (F a)
      · simpa [h] using ih v0

theorem foldl_if_some_exists {α β : Type} (P : α → Prop) [DecidablePred P] (F : α → β) :
    ∀ (l : List α) (init : Option β) (v : β),
      l.foldl (fun acc e => if P e then some (F e) else acc) init = some v →
      (∃ e ∈ l, P e ∧ F e = v) ∨ init = some v := by
  intro l
  induction l with
  | nil => intro init v h; exact .inr h
  | cons a t ih =>
      intro init v h
      simp only [List.foldl_cons] at h
      rcases ih _ _ h with ⟨e, he, hp, hf⟩ | hinit
      · exact .inl ⟨e, List.mem_cons_of_mem _ he, hp, hf⟩
      · by_cases hpa : P a
        · rw [if_pos hpa] at hinit
          exact .inl ⟨a, List.mem_cons_self a t, hpa, (Option.some.injEq _ _ ▸ hinit)⟩
        · rw [if_neg hpa] at hinit
          exact .inr hinit

theorem foldl_if_isSome {α β : Type} (P : α → Prop) [DecidablePred P] (F : α → β) :
    ∀ (l : List α) (init : Option β), (∃ e ∈ l, P e) →
      ∃ v, l.foldl (fun acc e => if P e then some (F e) else acc) init = some v := by
  intro l
  induction l with
  | nil => rintro init ⟨e, he, -⟩; exact absurd he (List.not_mem_nil e)
  | cons a t ih =>
      rintro init ⟨e, he, hp⟩
      simp only [List.foldl_cons]
      rcases List.mem_cons.mp he with rfl | ht
      · rw [if_pos hp]
        exact foldl_if_some_stays P F t (F e)
      · exact ih _ ⟨e, ht, hp⟩

theorem lastPhraseOf_lookup (entries : List GlyphEntry) :
    ∀ (m : List (String × List String)) (g : String),
      lookupA (entries.foldl (fun m e => setA m e.glyph e.phrase) m) g =
        entries.foldl (fun acc e => if e.glyph = g then some e.phrase else acc)
          (lookupA m g) := by
  induction entries with
  | nil => intro m g; rfl
  | cons e es ih =>
      intro m g
      simp only [List.foldl_cons]
      rw [ih]
      by_cases h : e.glyph = g
      · subst h
        rw [lookupA_setA_self, if_pos rfl]
      · rw [lookupA_setA_other _ _ _ _ (fun hc => h hc.symm), if_neg h]

theorem glyphToPhrase_lookup (entries : List GlyphEntry) (g : String) :
    lookupA (glyphToPhrase entries) g = lastPhraseOf entries g := by
  rw [glyphToPhrase, lastPhraseOf_lookup]
  rfl
theorem walk_nil (t : Trie) (d : Nat) (best : Option (Nat × String)) :
    walk t [] d best = best := rfl

theorem walk_cons_none (t : Trie) (w : String) (rest : List String) (d : Nat)
    (best : Option (Nat × String)) (hk : t.getKid w = none) :
    walk t (w :: rest) d best = best := by
  simp [walk, hk]

theorem walk_cons_glyph (t kid : Trie) (w : String) (rest : List String) (d : Nat)
    (best : Option (Nat × String)) (g0 : String)
    (hk : t.getKid w = some kid) (hg : kid.glyph = some g0) :
    walk t (w :: rest) d best = walk kid rest (d + 1) (some (d + 1, g0)) := by
  simp [walk, hk, hg]

theorem walk_cons_noglyph (t kid : Trie) (w : String) (rest : List String) (d : Nat)
    (best : Option (Nat × String))
    (hk : t.getKid w = some kid) (hg : kid.glyph = none) :
    walk t (w :: rest) d best = walk kid rest (d + 1) best := by
  simp [walk, hk, hg]

/-- Soundness of the matching walk: any match it reports (other than the one
passed in) is a glyph-bearing prefix of the scanned words. -/
theorem walk_sound :
    ∀ (ws : List String) (t : Trie) (d : Nat) (best : Option (Nat × String))
      (len : Nat) (g : String),
      walk t ws d best = some (len, g) →
      best = some (len, g) ∨
        (d < len ∧ len - d ≤ ws.length ∧ glyphAtPath t (ws.take (len - d)) = some g) := by
  intro ws
  induction ws with
  | nil => intro t d best len g h; exact .inl h
  | cons w rest ih =>
      intro t d best len g h
      cases hk : t.getKid w with
      | none => rw [walk_cons_none _ _ _ _ _ hk] at h; exact .inl h
      | some kid =>
          cases hg : kid.glyph with
          | some g0 =>
              rw [walk_cons_glyph _ _ _ _ _ _ _ hk hg] at h
              rcases ih kid (d + 1) _ len g h with hbest | hrec
              · simp only [Option.some.injEq, Prod.mk.injEq] at hbest
                obtain ⟨hlen, hgg⟩ := hbest
                right
                refine ⟨by omega, by simp only [List.length_cons]; omega, ?_⟩
                have h1 : len - d = 1 := by omega
                rw [h1, List.take_succ_cons, List.take_zero, glyphAtPath_cons _ _ _ _ hk]
                simp [glyphAtPath, trieAt, hg, hgg]
              · right
                obtain ⟨h1, h2, h3⟩ := hrec
                refine ⟨by omega, by simp only [List.length_cons]; omega, ?_⟩
                have hsplit : len - d = (len - (d + 1)) + 1 := by omega
                rw [hsplit, List.take_succ_cons, glyphAtPath_cons _ _ _ _ hk]
                exact h3
          | none =>
              rw [walk_cons_noglyph _ _ _ _ _ _ hk hg] at h
              rcases ih kid (d + 1) _ len g h with hbest | hrec
              · exact .inl hbest
              · right
                obtain ⟨h1, h2, h3⟩ := hrec
                refine ⟨by omega, by simp only [List.length_cons]; omega, ?_⟩
                have hsplit : len - d = (len - (d + 1)) + 1 := by omega
                rw [hsplit, List.take_succ_cons, glyphAtPath_cons _ _ _ _ hk]
                exact h3

/-- The walk never loses a match already in hand: started with
`best = some (m, g)` where `m ≤ d + 1`, it returns a match of length `≥ m`. -/
theorem walk_ge :
    ∀ (ws : List String) (t : Trie) (d m : Nat) (g : String), m ≤ d + 1 →
      ∃ len g2, walk t ws d (some (m, g)) = some (len, g2) ∧ m ≤ len := by
  intro ws
  induction ws with
  | nil => intro t d m g _; exact ⟨m, g, rfl, le_refl m⟩
  | cons w rest ih =>
      intro t d m g hm
      cases hk : t.getKid w with
      | none => exact ⟨m, g, walk_cons_none _ _ _ _ _ hk, le_refl m⟩
      | some kid =>
          cases hg : kid.glyph with
          | some g0 =>
              obtain ⟨len, g2, hw, hge⟩ := ih kid (d + 1) (d + 1) g0 (by omega)
              refine ⟨len, g2, ?_, by omega⟩
              rw [walk_cons_glyph _ _ _ _ _ _ _ hk hg]
              exact hw
          | none =>
              obtain ⟨len, g2, hw, hge⟩ := ih kid (d + 1) m g (by omega)
              refine ⟨len, g2, ?_, hge⟩
              rw [walk_cons_noglyph _ _ _ _ _ _ hk hg]
              exact hw

/-- Completeness of the matching walk: if a glyph-bearing prefix of length `k`
exists, the walk returns a match of length at least `k`. -/
theorem walk_complete :
    ∀ (ws : List String) (t : Trie) (d : Nat) (best : Option (Nat × String))
      (k : Nat) (g : String),
      1 ≤ k → k ≤ ws.length → glyphAtPath t (ws.take k) = some g →
      (best = none ∨ ∃ m gb, best = some (m, gb) ∧ m ≤ d + 1) →
      ∃ len g2, walk t ws d best = some (len, g2) ∧ d + k ≤ len := by
  intro ws
  induction ws with
  | nil =>
      intro t d best k g hk1 hk2 _ _
      simp only [List.length_nil] at hk2
      omega
  | cons w rest ih =>
      intro t d best k g hk1 hk2 hglyph hbest
      obtain ⟨k', rfl⟩ : ∃ k', k = k' + 1 := ⟨k - 1, by omega⟩
      rw [List.take_succ_cons] at hglyph
      cases hk : t.getKid w with
      | none => rw [glyphAtPath_cons_none _ _ _ hk] at hglyph; exact absurd hglyph (by simp)
      | some kid =>
          rw [glyphAtPath_cons _ _ _ _ hk] at hglyph
          cases hk0 : k' with
          | zero =>
              subst hk0
              simp only [List.take_zero, glyphAtPath, trieAt] at hglyph
              obtain ⟨len, g2, hw, hge⟩ := walk_ge rest kid (d + 1) (d + 1) g (by omega)
              refine ⟨len, g2, ?_, by omega⟩
              rw [walk_cons_glyph _ _ _ _ _ _ _ hk hglyph]
              exact hw
          | succ k2 =>
              subst hk0
              have hrec : ∀ best2, (best2 = none ∨
                  ∃ m gb, best2 = some (m, gb) ∧ m ≤ (d + 1) + 1) →
                  ∃ len g2, walk kid rest (d + 1) best2 = some (len, g2) ∧
                    (d + 1) + (k2 + 1) ≤ len := by
                intro best2 hb2
                exact ih kid (d + 1) best2 (k2 + 1) g (by omega)
                  (by simp only [List.length_cons] at hk2; omega) hglyph hb2
              cases hg : kid.glyph with
              | some g0 =>
                  obtain ⟨len, g2, hw, hge⟩ :=
                    hrec (some (d + 1, g0)) (.inr ⟨d + 1, g0, rfl, by omega⟩)
                  refine ⟨len, g2, ?_, by omega⟩
                  rw [walk_cons_glyph _ _ _ _ _ _ _ hk hg]
                  exact hw
              | none =>
                  rcases hbest with rfl | ⟨m, gb, rfl, hm⟩
                  · obtain ⟨len, g2, hw, hge⟩ := hrec none (.inl rfl)
                    refine ⟨len, g2, ?_, by omega⟩
                    rw [walk_cons_noglyph _ _ _ _ _ _ hk hg]
                    exact hw
                  · obtain ⟨len, g2, hw, hge⟩ :=
                      hrec (some (m, gb)) (.inr ⟨m, gb, rfl, by omega⟩)
                    refine ⟨len, g2, ?_, by omega⟩
                    rw [walk_cons_noglyph _ _ _ _ _ _ hk hg]
                    exact hw

/-- One encoder step when a glyph-bearing prefix exists: the longest one wins. -/
theorem encode_step_match (trie : Trie) (w : String) (rest : List String) (k : Nat) (g : String)
    (hk1 : 1 ≤ k) (hk2 : k ≤ (w :: rest).length)
    (hg : glyphAtPath trie ((w :: rest).take k) = some g)
    (hmax : ∀ j, j ≤ (w :: rest).length → k < j →
      glyphAtPath trie ((w :: rest).take j) = none) :
    encode (w :: rest) trie = g :: encode ((w :: rest).drop k) trie := by
  obtain ⟨k', rfl⟩ : ∃ k', k = k' + 1 := ⟨k - 1, by omega⟩
  obtain ⟨len, g2, hw, hge⟩ :=
    walk_complete (w :: rest) trie 0 none (k' + 1) g hk1 hk2 hg (.inl rfl)
  rcases walk_sound _ _ _ _ _ _ hw with hbest | ⟨h1, h2, h3⟩
  · exact absurd hbest (by simp)
  · simp only [Nat.sub_zero] at h2 h3
    have hlk : len = k' + 1 := by
      by_contra hne
      have hnone := hmax len h2 (by omega)
      rw [hnone] at h3
      exact absurd h3 (by simp)
    subst hlk
    rw [hg] at h3
    simp only [Option.some.injEq] at h3
    have henc : encode (w :: rest) trie =
        g2 :: encode (rest.drop (k' + 1 - 1)) trie := by
      rw [encode_cons, hw]
    rw [henc, List.drop_succ_cons]
    simp only [Nat.add_sub_cancel]
    rw [← h3]

/-- One encoder step when no glyph-bearing prefix exists: the raw word is kept. -/
theorem encode_step_nomatch (trie : Trie) (w : String) (rest : List String)
    (hnone : ∀ j, j ≤ (w :: rest).length → 1 ≤ j →
      glyphAtPath trie ((w :: rest).take j) = none) :
    encode (w :: rest) trie = w :: encode rest trie := by
  have hwalk : walk trie (w :: rest) 0 none = none := by
    cases hw : walk trie (w :: rest) 0 none with
    | none => rfl
    | some p =>
        obtain ⟨len, g⟩ := p
        rcases walk_sound _ _ _ _ _ _ hw with hbest | ⟨h1, h2, h3⟩
        · exact absurd hbest (by simp)
        · simp only [Nat.sub_zero] at h2 h3
          rw [hnone len h2 (by omega)] at h3
          exact absurd h3 (by simp)
  rw [encode_cons, hwalk]

/-- Dictionary used by the spec's longest-match example:
`{"a","b"} → "X"` and `{"a","b","c"} → "Y"`. -/
def exampleEntries : List GlyphEntry :=
  [⟨["a", "b"], "X", none⟩, ⟨["a", "b", "c"], "Y", none⟩]

/-- C3: at each scan position `encode` emits the glyph of the longest
dictionary phrase matching there that terminates at a glyph-bearing node and
advances by its length, or emits the single raw token and advances by one when
no glyph-terminated prefix matches; in particular, with entries
`["a","b"] → "X"` and `["a","b","c"] → "Y"`, encoding `["a","b","c"]` yields
`["Y"]`, not `["X","c"]`. -/
theorem encode_longest_match :
    (∀ (trie : Trie) (w : String) (rest : List String) (k : Nat) (g : String),
        1 ≤ k → k ≤ (w :: rest).length →
        glyphAtPath trie ((w :: rest).take k) = some g →
        (∀ j, j ≤ (w :: rest).length → k < j →
          glyphAtPath trie ((w :: rest).take j) = none) →
        encode (w :: rest) trie = g :: encode ((w :: rest).drop k) trie) ∧
    (∀ (trie : Trie) (w : String) (rest : List String),
        (∀ j, j ≤ (w :: rest).length → 1 ≤ j →
          glyphAtPath trie ((w :: rest).take j) = none) →
        encode (w :: rest) trie = w :: encode rest trie) ∧
    encode ["a", "b", "c"] (build exampleEntries) = ["Y"] := by
  refine ⟨encode_step_match, encode_step_nomatch, ?_⟩
  rw [encode_step_match (build exampleEntries) "a" ["b", "c"] 3 "Y" (by omega) (by simp)
    (by decide) (by intro j h1 h2; simp only [List.length_cons, List.length_nil] at h1; omega)]
  rw [show (["a", "b", "c"] : List String).drop 3 = [] from rfl, encode_nil]

/-- Witness for C3: the longest-match step applied to the spec's example. -/
theorem encode_longest_match_wit :
    encode ["a", "b", "c"] (build exampleEntries) =
      "Y" :: encode ((["a", "b", "c"] : List String).drop 3) (build exampleEntries) :=
  encode_longest_match.1 (build exampleEntries) "a" ["b", "c"] 3 "Y" (by omega) (by simp)
    (by decide) (by intro j h1 h2; simp only [List.length_cons, List.length_nil] at h1; omega)

theorem roundtrip_aux (entries : List GlyphEntry)
    (hinj : ∀ e1 ∈ entries, ∀ e2 ∈ entries, e1.glyph = e2.glyph → e1.phrase = e2.phrase) :
    ∀ (n : Nat) (ws : List String), ws.length ≤ n →
      (∀ e ∈ entries, e.glyph ∉ ws) →
      decode (encode ws (build entries)) entries = ws := by
  intro n
  induction n with
  | zero =>
      intro ws hlen _
      have hnil : ws = [] := List.eq_nil_of_length_eq_zero (by omega)
      subst hnil
      rw [encode_nil, decode_nil]
  | succ n ih =>
      intro ws hlen hdisj
      cases ws with
      | nil => rw [encode_nil, decode_nil]
      | cons w rest =>
          cases hw : walk (build entries) (w :: rest) 0 none with
          | none =>
              have henc : encode (w :: rest) (build entries) =
                  w :: encode rest (build entries) := by
                rw [encode_cons, hw]
              have hlook : lookupA (glyphToPhrase entries) w = none := by
                cases hl : lookupA (glyphToPhrase entries) w with
                | none => rfl
                | some p =>
                    rw [glyphToPhrase_lookup, lastPhraseOf] at hl
                    rcases foldl_if_some_exists (fun e : GlyphEntry => e.glyph = w)
                      (fun e : GlyphEntry => e.phrase) entries none p hl with
                      ⟨e, he, hp, -⟩ | habs
                    · have hme := hdisj e he
                      rw [hp] at hme
                      exact absurd (List.mem_cons_self w rest) hme
                    · exact absurd habs (by simp)
              rw [henc, decode_cons]
              simp only [hlook]
              rw [ih rest (by simp only [List.length_cons] at hlen; omega)
                (fun e he hmem => hdisj e he (List.mem_cons_of_mem _ hmem))]
              rfl
          | some q =>
              obtain ⟨len, g⟩ := q
              rcases walk_sound _ _ _ _ _ _ hw with hbest | ⟨h1, h2, h3⟩
              · exact absurd hbest (by simp)
              · simp only [Nat.sub_zero] at h2 h3
                have henc : encode (w :: rest) (build entries) =
                    g :: encode (rest.drop (len - 1)) (build entries) := by
                  rw [encode_cons, hw]
                rw [build_glyphAtPath, lastGlyphOf] at h3
                rcases foldl_if_some_exists
                  (fun e : GlyphEntry => e.phrase = (w :: rest).take len)
                  (fun e : GlyphEntry => e.glyph) entries none g h3 with
                  ⟨e, he, hp, hf⟩ | habs
                · obtain ⟨p', hp'⟩ := foldl_if_isSome (fun e2 : GlyphEntry => e2.glyph = g)
                    (fun e2 : GlyphEntry => e2.phrase) entries none ⟨e, he, hf⟩
                  rcases foldl_if_some_exists (fun e2 : GlyphEntry => e2.glyph = g)
                    (fun e2 : GlyphEntry => e2.phrase) entries none p' hp' with
                    ⟨e2, he2, hg2, hph2⟩ | habs2
                  · have hlook : lookupA (glyphToPhrase entries) g = some p' := by
                      rw [glyphToPhrase_lookup, lastPhraseOf]
                      exact hp'
                    have hpeq : p' = (w :: rest).take len := by
                      rw [← hph2, ← hp]
                      exact hinj e2 he2 e he (by rw [hg2, hf])
                    have hdrop : rest.drop (len - 1) = (w :: rest).drop len := by
                      obtain ⟨l', rfl⟩ : ∃ l', len = l' + 1 := ⟨len - 1, by omega⟩
                      simp [List.drop_succ_cons]
                    rw [henc, decode_cons]
                    simp only [hlook]
                    rw [hpeq, hdrop,
                      ih ((w :: rest).drop len)
                        (by simp only [List.length_drop, List.length_cons] at hlen ⊢; omega)
                        (fun e3 he3 hmem => hdisj e3 he3 (List.mem_of_mem_drop hmem)),
                      List.take_append_drop]
                  · exact absurd habs2 (by simp)
                · exact absurd habs (by simp)

/-- Entries showing that glyph/literal disjointness alone does not make
decoding invert encoding: two entries share the glyph `"X"`. -/
def dupGlyphEntries : List GlyphEntry := [⟨["a"], "X", none⟩, ⟨["b"], "X", none⟩]

/-- C1 counterexample: the dictionary `[["a"] → "X", ["b"] → "X"]` has glyphs
disjoint from the token sequence `["a"]`, yet decoding the encoded stream
yields `["b"]`, not `["a"]` (the reverse map is last-write-wins on glyphs). -/
theorem decode_encode_roundtrip_cex :
    (dupGlyphEntries.all fun e => !(List.contains ["a"] e.glyph)) = true ∧
    decode (encode ["a"] (build dupGlyphEntries)) dupGlyphEntries = ["b"] ∧
    (["b"] : List String) ≠ ["a"] := by
  refine ⟨by decide, ?_, by decide⟩
  have hw : walk (build dupGlyphEntries) ["a"] 0 none = some (1, "X") := by decide
  have henc : encode ["a"] (build dupGlyphEntries) = ["X"] := by
    rw [encode_cons, hw]
    simp [encode_nil]
  rw [henc]
  decide

/-- C1 (amended): decoding inverts encoding for every token sequence and every
glyph dictionary whose glyph strings are disjoint from the literal vocabulary,
provided additionally that no two entries carry the same glyph with different
phrases (entries sharing a glyph must share the phrase). -/
theorem decode_encode_roundtrip (entries : List GlyphEntry) (ws : List String)
    (hdisj : ∀ e ∈ entries, e.glyph ∉ ws)
    (hinj : ∀ e1 ∈ entries, ∀ e2 ∈ entries, e1.glyph = e2.glyph → e1.phrase = e2.phrase) :
    decode (encode ws (build entries)) entries = ws :=
  roundtrip_aux entries hinj ws.length ws (le_refl _) hdisj

/-- Witness for C1: the round-trip theorem applied to a concrete dictionary
and token sequence. -/
theorem decode_encode_roundtrip_wit :
    decode (encode ["a", "b", "c"] (build exampleEntries)) exampleEntries = ["a", "b", "c"] :=
  decode_encode_roundtrip exampleEntries ["a", "b", "c"] (by decide) (by decide)

/-- Point in the plane (`Vec` in the source).  The `y` field stores the
rational coefficient of `√3`: the real point is `(x, y·√3)`.  Every coordinate
the address-space code produces is of this form (the triangle corner `C` is
`(0.5, √3/2)`, and midpoints/centroids are rational combinations), and the
containment test below only multiplies two `y` values together, which is why
the embedding can stay inside `ℚ`. -/
structure Vec where
  x : ℚ
  y : ℚ
deriving DecidableEq, Repr

/-- Corner `A = (0, 0)` of the unit triangle. -/
def vA : Vec := ⟨0, 0⟩

/-- Corner `B = (1, 0)` of the unit triangle. -/
def vB : Vec := ⟨1, 0⟩

/-- Corner `C = (0.5, √3/2)` of the unit triangle (stored `y` is `1/2`). -/
def vC : Vec := ⟨1 / 2, 1 / 2⟩

/-- Edge midpoint (componentwise mean). -/
def midpoint (p q : Vec) : Vec := ⟨(p.x + q.x) / 2, (p.y + q.y) / 2⟩

/-- Triangle centroid (componentwise mean of the three corners). -/
def centroid (p q r : Vec) : Vec :=
  ⟨(p.x + q.x + r.x) / 3, (p.y + q.y + r.y) / 3⟩

/-- Loop of `addressToPoint`: narrow the triangle by one Sierpinski
subdivision step per base-3 digit (`'0'` → corner `A` side, `'1'` → corner `B`
side, anything else → corner `C` side, mirroring the `if/else if/else` chain),
then return the centroid of the final triangle. -/
def addressToPointAux : List Char → Vec → Vec → Vec → Vec
  | [], pA, pB, pC => centroid pA pB pC
  | ch :: rest, pA, pB, pC =>
      let ab := midpoint pA pB
      let bc := midpoint pB pC
      let ca := midpoint pC pA
      if ch = '0' then addressToPointAux rest pA ab ca
      else if ch = '1' then addressToPointAux rest ab pB bc
      else addressToPointAux rest ca bc pC

/-- Forward address map (`addressToPoint` in the source). -/
def addressToPoint (code : String) : Vec :=
  addressToPointAux code.data vA vB vC

/-- Exact barycentric containment test (`pointInTri` in the source).  The dot
products carry weight 3 on the `y` components because the stored `y` is the
coefficient of `√3` (so `(y₁√3)·(y₂√3) = 3·y₁·y₂`); with that weight every
quantity below equals the corresponding real number in the source exactly. -/
def pointInTri (p a b c : Vec) : Bool :=
  let v0x := c.x - a.x
  let v0y := c.y - a.y
  let v1x := b.x - a.x
  let v1y := b.y - a.y
  let v2x := p.x - a.x
  let v2y := p.y - a.y
  let dot00 := v0x * v0x + 3 * (v0y * v0y)
  let dot01 := v0x * v1x + 3 * (v0y * v1y)
  let dot02 := v0x * v2x + 3 * (v0y * v2y)
  let dot11 := v1x * v1x + 3 * (v1y * v1y)
  let dot12 := v1x * v2x + 3 * (v1y * v2y)
  let invDenom := 1 / (dot00 * dot11 - dot01 * dot01)
  let u := (dot11 * dot02 - dot01 * dot12) * invDenom
  let v := (dot00 * dot12 - dot01 * dot02) * invDenom
  decide (0 ≤ u) && decide (0 ≤ v) && decide (u + v ≤ 1)

/-- Loop of `pointToAddress`: at each of the `D` levels test the three
sub-triangles in order `0, 1, 2` with the exact containment test, emit the
first digit whose sub-triangle contains the point, and recurse into it. -/
def pointToAddressAux (p : Vec) : Nat → Vec → Vec → Vec → List Char
  | 0, _, _, _ => []
  | d + 1, a, b, c =>
      let ab := midpoint a b
      let bc := midpoint b c
      let ca := midpoint c a
      if pointInTri p a ab ca then '0' :: pointToAddressAux p d a ab ca
      else if pointInTri p ab b bc then '1' :: pointToAddressAux p d ab b bc
      else '2' :: pointToAddressAux p d ca bc c

/-- Inverse address map (`pointToAddress` in `src/unnamed/part_000`, the exact
barycentric variant). -/
def pointToAddress (p : Vec) (D : Nat) : String :=
  ⟨pointToAddressAux p D vA vB vC⟩

/-- Digit list of `n` in base 3, most significant first (the `while (n > 0)`
loop of `toBase3`).  The first argument is fuel bounding the iteration count;
any fuel `≥ n` is enough since `n` strictly shrinks under division by 3, and
`toBase3` below passes `n` itself. -/
def natToBase3 : Nat → Nat → List Nat
  | 0, _ => []
  | fuel + 1, n => if n = 0 then [] else natToBase3 fuel (n / 3) ++ [n % 3]

/-- Rendering of a base-3 digit as a character (`(n % 3).toString()`). -/
def digitChar (d : Nat) : Char := Char.ofNat (48 + d)

/-- Base-3 rendering with zero padding to `minLength` (`toBase3` in
`path.ts`). -/
def toBase3 (n : Nat) (minLength : Nat) : String :=
  if n = 0 then ⟨List.replicate minLength '0'⟩
  else
    let digits := natToBase3 n n
    ⟨List.replicate (minLength - digits.length) '0' ++ digits.map digitChar⟩

/-- Barycentric coordinate along `B − A` (relative to the current triangle) of
the centroid of the sub-triangle addressed by the remaining digits. -/
def alphaOf : List Char → ℚ
  | [] => 1 / 3
  | c :: rest => (if c = '1' then 1 / 2 else 0) + alphaOf rest / 2

/-- Barycentric coordinate along `C − A` (relative to the current triangle) of
the centroid of the sub-triangle addressed by the remaining digits. -/
def betaOf : List Char → ℚ
  | [] => 1 / 3
  | c :: rest => (if c = '0' ∨ c = '1' then 0 else 1 / 2) + betaOf rest / 2

theorem alphaOf_betaOf_bounds : ∀ ds : List Char,
    (1 / 3) * (1 / 2) ^ ds.length ≤ alphaOf ds ∧
    (1 / 3) * (1 / 2) ^ ds.length ≤ betaOf ds ∧
    alphaOf ds + betaOf ds ≤ 1 - (1 / 3) * (1 / 2) ^ ds.length := by
  intro ds
  induction ds with
  | nil => norm_num [alphaOf, betaOf]
  | cons c rest ih =>
      obtain ⟨h1, h2, h3⟩ := ih
      have hP : (0 : ℚ) < (1 / 2) ^ rest.length := by positivity
      have hα : alphaOf (c :: rest) = (if c = '1' then 1 / 2 else 0) + alphaOf rest / 2 := rfl
      have hβ : betaOf (c :: rest) =
          (if c = '0' ∨ c = '1' then 0 else 1 / 2) + betaOf rest / 2 := rfl
      have hlen : (c :: rest).length = rest.length + 1 := rfl
      have hcase : ((if c = '1' then (1 : ℚ) / 2 else 0) = 1 / 2 ∧
            (if c = '0' ∨ c = '1' then (0 : ℚ) else 1 / 2) = 0) ∨
          ((if c = '1' then (1 : ℚ) / 2 else 0) = 0 ∧
            (if c = '0' ∨ c = '1' then (0 : ℚ) else 1 / 2) = 0) ∨
          ((if c = '1' then (1 : ℚ) / 2 else 0) = 0 ∧
            (if c = '0' ∨ c = '1' then (0 : ℚ) else 1 / 2) = 1 / 2) := by
        by_cases hc1 : c = '1'
        · exact .inl ⟨if_pos hc1, if_pos (.inr hc1)⟩
        · by_cases hc0 : c = '0'
          · exact .inr (.inl ⟨if_neg hc1, if_pos (.inl hc0)⟩)
          · refine .inr (.inr ⟨if_neg hc1, if_neg ?_⟩)
            rintro (h | h)
            exacts [hc0 h, hc1 h]
      rw [hα, hβ, hlen, pow_succ]
      rcases hcase with ⟨e1, e2⟩ | ⟨e1, e2⟩ | ⟨e1, e2⟩ <;> rw [e1, e2] <;>
        exact ⟨by linarith, by linarith, by linarith⟩

/-- Evaluation of the exact containment test on a triangle similar to the base
triangle with positive scale `s`: the point `a + (av·(B−A) + bv·(C−A))` lies in
the (closed) triangle `(a, a + s·(B−A), a + s·(C−A))` exactly when its
barycentric coordinates `av, bv` are nonnegative and sum to at most `s`. -/
theorem pointInTri_scaled (ax ay s av bv : ℚ) (hs : 0 < s) :
    pointInTri ⟨ax + (av + bv / 2), ay + bv / 2⟩ ⟨ax, ay⟩ ⟨ax + s, ay⟩
      ⟨ax + s / 2, ay + s / 2⟩ = decide (0 ≤ av ∧ 0 ≤ bv ∧ av + bv ≤ s) := by
  have key : ∀ d00 d01 d02 d11 d12 : ℚ,
      d00 = s ^ 2 → d01 = s ^ 2 / 2 → d02 = s / 2 * (av + 2 * bv) →
      d11 = s ^ 2 → d12 = s * (av + bv / 2) →
      ((decide (0 ≤ (d11 * d02 - d01 * d12) * (1 / (d00 * d11 - d01 * d01))) &&
        decide (0 ≤ (d00 * d12 - d01 * d02) * (1 / (d00 * d11 - d01 * d01)))) &&
        decide ((d11 * d02 - d01 * d12) * (1 / (d00 * d11 - d01 * d01)) +
          (d00 * d12 - d01 * d02) * (1 / (d00 * d11 - d01 * d01)) ≤ 1)) =
        decide (0 ≤ av ∧ 0 ≤ bv ∧ av + bv ≤ s) := by
    rintro d00 d01 d02 d11 d12 rfl rfl rfl rfl rfl
    have hs0 : s ≠ 0 := ne_of_gt hs
    have hden : s ^ 2 * s ^ 2 - s ^ 2 / 2 * (s ^ 2 / 2) ≠ 0 := by
      have h34 : s ^ 2 * s ^ 2 - s ^ 2 / 2 * (s ^ 2 / 2) = 3 / 4 * s ^ 4 := by ring
      rw [h34]
      positivity
    have hu : (s ^ 2 * (s / 2 * (av + 2 * bv)) - s ^ 2 / 2 * (s * (av + bv / 2))) *
        (1 / (s ^ 2 * s ^ 2 - s ^ 2 / 2 * (s ^ 2 / 2))) = bv / s := by
      rw [eq_div_iff hs0, mul_one_div, div_mul_eq_mul_div, div_eq_iff hden]
      ring
    have hv : (s ^ 2 * (s * (av + bv / 2)) - s ^ 2 / 2 * (s / 2 * (av + 2 * bv))) *
        (1 / (s ^ 2 * s ^ 2 - s ^ 2 / 2 * (s ^ 2 / 2))) = av / s := by
      rw [eq_div_iff hs0, mul_one_div, div_mul_eq_mul_div, div_eq_iff hden]
      ring
    rw [hu, hv, ← Bool.decide_and, ← Bool.decide_and]
    apply decide_eq_decide.mpr
    rw [div_add_div_same, div_le_one hs]
    constructor
    · rintro ⟨⟨hb, ha⟩, hab⟩
      have hb2 : 0 ≤ bv := by
        by_contra hneg
        have : bv / s < 0 := div_neg_of_neg_of_pos (by linarith) hs
        linarith
      have ha2 : 0 ≤ av := by
        by_contra hneg
        have : av / s < 0 := div_neg_of_neg_of_pos (by linarith) hs
        linarith
      exact ⟨ha2, hb2, by linarith⟩
    · rintro ⟨ha, hb, hab⟩
      exact ⟨⟨div_nonneg hb hs.le, div_nonneg ha hs.le⟩, by linarith⟩
  have hres := key
    ((ax + s / 2 - ax) * (ax + s / 2 - ax) + 3 * ((ay + s / 2 - ay) * (ay + s / 2 - ay)))
    ((ax + s / 2 - ax) * (ax + s - ax) + 3 * ((ay + s / 2 - ay) * (ay - ay)))
    ((ax + s / 2 - ax) * (ax + (av + bv / 2) - ax) +
      3 * ((ay + s / 2 - ay) * (ay + bv / 2 - ay)))
    ((ax + s - ax) * (ax + s - ax) + 3 * ((ay - ay) * (ay - ay)))
    ((ax + s - ax) * (ax + (av + bv / 2) - ax) + 3 * ((ay - ay) * (ay + bv / 2 - ay)))
    (by ring) (by ring) (by ring) (by ring) (by ring)
  exact hres

theorem scaled_cond_half (s a b : ℚ) (hs : 0 < s) :
    (0 ≤ s * a ∧ 0 ≤ s * b ∧ s * a + s * b ≤ s / 2) ↔
      (0 ≤ a ∧ 0 ≤ b ∧ a + b ≤ 1 / 2) := by
  rw [mul_nonneg_iff_of_pos_left hs, mul_nonneg_iff_of_pos_left hs, ← mul_add,
    show s / 2 = s * (1 / 2) by ring, mul_le_mul_left hs]

/-- The centroid computed by the forward map, relative to a triangle similar
to the base triangle with scale `s`, sits at barycentric coordinates
`(alphaOf ds, betaOf ds)` of the remaining digits. -/
theorem addressToPointAux_eq : ∀ (ds : List Char) (ax ay s : ℚ),
    addressToPointAux ds ⟨ax, ay⟩ ⟨ax + s, ay⟩ ⟨ax + s / 2, ay + s / 2⟩ =
      ⟨ax + s * (alphaOf ds + betaOf ds / 2), ay + s * (betaOf ds / 2)⟩ := by
  intro ds
  induction ds with
  | nil =>
      intro ax ay s
      simp only [addressToPointAux, centroid, alphaOf, betaOf]
      rw [Vec.mk.injEq]
      constructor <;> ring
  | cons c rest ih =>
      intro ax ay s
      have hab : midpoint ⟨ax, ay⟩ ⟨ax + s, ay⟩ = (⟨ax + s / 2, ay⟩ : Vec) := by
        simp only [midpoint]
        rw [Vec.mk.injEq]
        constructor <;> ring
      have hca : midpoint ⟨ax + s / 2, ay + s / 2⟩ ⟨ax, ay⟩ =
          (⟨ax + s / 2 / 2, ay + s / 2 / 2⟩ : Vec) := by
        simp only [midpoint]
        rw [Vec.mk.injEq]
        constructor <;> ring
      simp only [addressToPointAux]
      by_cases hc0 : c = '0'
      · subst hc0
        rw [if_pos rfl, hab, hca, ih ax ay (s / 2), Vec.mk.injEq, alphaOf, betaOf,
          if_neg (show ¬('0' : Char) = '1' by decide),
          if_pos (Or.inl rfl : ('0' : Char) = '0' ∨ ('0' : Char) = '1')]
        constructor <;> ring
      · by_cases hc1 : c = '1'
        · subst hc1
          have hbc1 : midpoint ⟨ax + s, ay⟩ ⟨ax + s / 2, ay + s / 2⟩ =
              (⟨ax + s / 2 + s / 2 / 2, ay + s / 2 / 2⟩ : Vec) := by
            simp only [midpoint]
            rw [Vec.mk.injEq]
            constructor <;> ring
          have hb1 : (⟨ax + s, ay⟩ : Vec) = ⟨ax + s / 2 + s / 2, ay⟩ := by
            rw [Vec.mk.injEq]
            constructor <;> ring
          rw [if_neg hc0, if_pos rfl, hbc1, hab, hb1, ih (ax + s / 2) ay (s / 2),
            Vec.mk.injEq, alphaOf, betaOf, if_pos rfl,
            if_pos (Or.inr rfl : ('1' : Char) = '0' ∨ ('1' : Char) = '1')]
          constructor <;> ring
        · have hbc2 : midpoint ⟨ax + s, ay⟩ ⟨ax + s / 2, ay + s / 2⟩ =
              (⟨ax + s / 2 / 2 + s / 2, ay + s / 2 / 2⟩ : Vec) := by
            simp only [midpoint]
            rw [Vec.mk.injEq]
            constructor <;> ring
          have hc2 : (⟨ax + s / 2, ay + s / 2⟩ : Vec) =
              ⟨ax + s / 2 / 2 + s / 2 / 2, ay + s / 2 / 2 + s / 2 / 2⟩ := by
            rw [Vec.mk.injEq]
            constructor <;> ring
          have hor : ¬(c = '0' ∨ c = '1') := by
            rintro (h | h)
            exacts [hc0 h, hc1 h]
          rw [if_neg hc0, if_neg hc1, hbc2, hca, hc2,
            ih (ax + s / 2 / 2) (ay + s / 2 / 2) (s / 2),
            Vec.mk.injEq, alphaOf, betaOf, if_neg hc1, if_neg hor]
          constructor <;> ring

/-- The inverse map recovers the digits of the forward map's centroid, one
subdivision level at a time: at each level the first containment test that
succeeds (in order `0`, `1`, `2`) is the one for the digit actually taken. -/
theorem pointToAddressAux_eq : ∀ (ds : List Char) (ax ay s : ℚ), 0 < s →
    (∀ c ∈ ds, c = '0' ∨ c = '1' ∨ c = '2') →
    pointToAddressAux
      ⟨ax + s * (alphaOf ds + betaOf ds / 2), ay + s * (betaOf ds / 2)⟩
      ds.length ⟨ax, ay⟩ ⟨ax + s, ay⟩ ⟨ax + s / 2, ay + s / 2⟩ = ds := by
  intro ds
  induction ds with
  | nil => intro ax ay s _ _; rfl
  | cons c rest ih =>
      intro ax ay s hs hval
      have hs2 : (0 : ℚ) < s / 2 := by linarith
      obtain ⟨hr1, hr2, hr3⟩ := alphaOf_betaOf_bounds rest
      have hP : (0 : ℚ) < (1 / 2) ^ rest.length := by positivity
      have hvr : ∀ c2 ∈ rest, c2 = '0' ∨ c2 = '1' ∨ c2 = '2' :=
        fun c2 hc2 => hval c2 (List.mem_cons_of_mem _ hc2)
      have hab : midpoint ⟨ax, ay⟩ ⟨ax + s, ay⟩ = (⟨ax + s / 2, ay⟩ : Vec) := by
        simp only [midpoint]
        rw [Vec.mk.injEq]
        constructor <;> ring
      have hca : midpoint ⟨ax + s / 2, ay + s / 2⟩ ⟨ax, ay⟩ =
          (⟨ax + s / 2 / 2, ay + s / 2 / 2⟩ : Vec) := by
        simp only [midpoint]
        rw [Vec.mk.injEq]
        constructor <;> ring
      have hbc1 : midpoint ⟨ax + s, ay⟩ ⟨ax + s / 2, ay + s / 2⟩ =
          (⟨ax + s / 2 + s / 2 / 2, ay + s / 2 / 2⟩ : Vec) := by
        simp only [midpoint]
        rw [Vec.mk.injEq]
        constructor <;> ring
      have hb1 : (⟨ax + s, ay⟩ : Vec) = ⟨ax + s / 2 + s / 2, ay⟩ := by
        rw [Vec.mk.injEq]
        constructor <;> ring
      rcases hval c (List.mem_cons_self c rest) with hc | hc | hc
      · subst hc
        have hα : alphaOf ('0' :: rest) = 0 + alphaOf rest / 2 := by
          rw [alphaOf, if_neg (show ¬('0' : Char) = '1' by decide)]
        have hβ : betaOf ('0' :: rest) = 0 + betaOf rest / 2 := by
          rw [betaOf, if_pos (Or.inl rfl : ('0' : Char) = '0' ∨ ('0' : Char) = '1')]
        have hp0 : (⟨ax + s * (alphaOf ('0' :: rest) + betaOf ('0' :: rest) / 2),
            ay + s * (betaOf ('0' :: rest) / 2)⟩ : Vec) =
            ⟨ax + (s * alphaOf ('0' :: rest) + s * betaOf ('0' :: rest) / 2),
              ay + s * betaOf ('0' :: rest) / 2⟩ := by
          rw [Vec.mk.injEq]
          constructor <;> ring
        have ht0 : pointInTri
            ⟨ax + s * (alphaOf ('0' :: rest) + betaOf ('0' :: rest) / 2),
              ay + s * (betaOf ('0' :: rest) / 2)⟩
            ⟨ax, ay⟩ (midpoint ⟨ax, ay⟩ ⟨ax + s, ay⟩)
            (midpoint ⟨ax + s / 2, ay + s / 2⟩ ⟨ax, ay⟩) = true := by
          rw [hab, hca, hp0, pointInTri_scaled ax ay (s / 2)
            (s * alphaOf ('0' :: rest)) (s * betaOf ('0' :: rest)) hs2,
            decide_eq_true_eq, scaled_cond_half s _ _ hs, hα, hβ]
          refine ⟨by linarith, by linarith, by linarith⟩
        simp only [List.length_cons, pointToAddressAux]
        rw [if_pos ht0, hab, hca]
        have hprec : (⟨ax + s * (alphaOf ('0' :: rest) + betaOf ('0' :: rest) / 2),
            ay + s * (betaOf ('0' :: rest) / 2)⟩ : Vec) =
            ⟨ax + s / 2 * (alphaOf rest + betaOf rest / 2),
              ay + s / 2 * (betaOf rest / 2)⟩ := by
          rw [Vec.mk.injEq, hα, hβ]
          constructor <;> ring
        rw [hprec, ih ax ay (s / 2) hs2 hvr]
      · subst hc
        have hα : alphaOf ('1' :: rest) = 1 / 2 + alphaOf rest / 2 := by
          rw [alphaOf, if_pos rfl]
        have hβ : betaOf ('1' :: rest) = 0 + betaOf rest / 2 := by
          rw [betaOf, if_pos (Or.inr rfl : ('1' : Char) = '0' ∨ ('1' : Char) = '1')]
        have hp0 : (⟨ax + s * (alphaOf ('1' :: rest) + betaOf ('1' :: rest) / 2),
            ay + s * (betaOf ('1' :: rest) / 2)⟩ : Vec) =
            ⟨ax + (s * alphaOf ('1' :: rest) + s * betaOf ('1' :: rest) / 2),
              ay + s * betaOf ('1' :: rest) / 2⟩ := by
          rw [Vec.mk.injEq]
          constructor <;> ring
        have ht0 : ¬(pointInTri
            ⟨ax + s * (alphaOf ('1' :: rest) + betaOf ('1' :: rest) / 2),
              ay + s * (betaOf ('1' :: rest) / 2)⟩
            ⟨ax, ay⟩ (midpoint ⟨ax, ay⟩ ⟨ax + s, ay⟩)
            (midpoint ⟨ax + s / 2, ay + s / 2⟩ ⟨ax, ay⟩) = true) := by
          rw [hab, hca, hp0, pointInTri_scaled ax ay (s / 2)
            (s * alphaOf ('1' :: rest)) (s * betaOf ('1' :: rest)) hs2,
            decide_eq_true_eq, scaled_cond_half s _ _ hs, hα, hβ]
          rintro ⟨h1, h2, h3⟩
          linarith
        have hp1 : (⟨ax + s * (alphaOf ('1' :: rest) + betaOf ('1' :: rest) / 2),
            ay + s * (betaOf ('1' :: rest) / 2)⟩ : Vec) =
            ⟨ax + s / 2 + (s * (alphaOf ('1' :: rest) - 1 / 2) +
              s * betaOf ('1' :: rest) / 2),
              ay + s * betaOf ('1' :: rest) / 2⟩ := by
          rw [Vec.mk.injEq]
          constructor <;> ring
        have ht1 : pointInTri
            ⟨ax + s * (alphaOf ('1' :: rest) + betaOf ('1' :: rest) / 2),
              ay + s * (betaOf ('1' :: rest) / 2)⟩
            (midpoint ⟨ax, ay⟩ ⟨ax + s, ay⟩) ⟨ax + s, ay⟩
            (midpoint ⟨ax + s, ay⟩ ⟨ax + s / 2, ay + s / 2⟩) = true := by
          rw [hab, hbc1, hb1, hp1, pointInTri_scaled (ax + s / 2) ay (s / 2)
            (s * (alphaOf ('1' :: rest) - 1 / 2)) (s * betaOf ('1' :: rest)) hs2,
            decide_eq_true_eq, scaled_cond_half s _ _ hs, hα, hβ]
          refine ⟨by linarith, by linarith, by linarith⟩
        simp only [List.length_cons, pointToAddressAux]
        rw [if_neg ht0, if_pos ht1, hbc1, hab, hb1]
        have hprec : (⟨ax + s * (alphaOf ('1' :: rest) + betaOf ('1' :: rest) / 2),
            ay + s * (betaOf ('1' :: rest) / 2)⟩ : Vec) =
            ⟨ax + s / 2 + s / 2 * (alphaOf rest + betaOf rest / 2),
              ay + s / 2 * (betaOf rest / 2)⟩ := by
          rw [Vec.mk.injEq, hα, hβ]
          constructor <;> ring
        rw [hprec, ih (ax + s / 2) ay (s / 2) hs2 hvr]
      · subst hc
        have hα : alphaOf ('2' :: rest) = 0 + alphaOf rest / 2 := by
          rw [alphaOf, if_neg (show ¬('2' : Char) = '1' by decide)]
        have hβ : betaOf ('2' :: rest) = 1 / 2 + betaOf rest / 2 := by
          rw [betaOf, if_neg (show ¬(('2' : Char) = '0' ∨ ('2' : Char) = '1') by decide)]
        have hp0 : (⟨ax + s * (alphaOf ('2' :: rest) + betaOf ('2' :: rest) / 2),
            ay + s * (betaOf ('2' :: rest) / 2)⟩ : Vec) =
            ⟨ax + (s * alphaOf ('2' :: rest) + s * betaOf ('2' :: rest) / 2),
              ay + s * betaOf ('2' :: rest) / 2⟩ := by
          rw [Vec.mk.injEq]
          constructor <;> ring
        have ht0 : ¬(pointInTri
            ⟨ax + s * (alphaOf ('2' :: rest) + betaOf ('2' :: rest) / 2),
              ay + s * (betaOf ('2' :: rest) / 2)⟩
            ⟨ax, ay⟩ (midpoint ⟨ax, ay⟩ ⟨ax + s, ay⟩)
            (midpoint ⟨ax + s / 2, ay + s / 2⟩ ⟨ax, ay⟩) = true) := by
          rw [hab, hca, hp0, pointInTri_scaled ax ay (s / 2)
            (s * alphaOf ('2' :: rest)) (s * betaOf ('2' :: rest)) hs2,
            decide_eq_true_eq, scaled_cond_half s _ _ hs, hα, hβ]
          rintro ⟨h1, h2, h3⟩
          linarith
        have hp1 : (⟨ax + s * (alphaOf ('2' :: rest) + betaOf ('2' :: rest) / 2),
            ay + s * (betaOf ('2' :: rest) / 2)⟩ : Vec) =
            ⟨ax + s / 2 + (s * (alphaOf ('2' :: rest) - 1 / 2) +
              s * betaOf ('2' :: rest) / 2),
              ay + s * betaOf ('2' :: rest) / 2⟩ := by
          rw [Vec.mk.injEq]
          constructor <;> ring
        have ht1 : ¬(pointInTri
            ⟨ax + s * (alphaOf ('2' :: rest) + betaOf ('2' :: rest) / 2),
              ay + s * (betaOf ('2' :: rest) / 2)⟩
            (midpoint ⟨ax, ay⟩ ⟨ax + s, ay⟩) ⟨ax + s, ay⟩
            (midpoint ⟨ax + s, ay⟩ ⟨ax + s / 2, ay + s / 2⟩) = true) := by
          rw [hab, hbc1, hb1, hp1, pointInTri_scaled (ax + s / 2) ay (s / 2)
            (s * (alphaOf ('2' :: rest) - 1 / 2)) (s * betaOf ('2' :: rest)) hs2,
            decide_eq_true_eq, scaled_cond_half s _ _ hs, hα]
          rintro ⟨h1, h2, h3⟩
          linarith
        have hbc2 : midpoint ⟨ax + s, ay⟩ ⟨ax + s / 2, ay + s / 2⟩ =
            (⟨ax + s / 2 / 2 + s / 2, ay + s / 2 / 2⟩ : Vec) := by
          simp only [midpoint]
          rw [Vec.mk.injEq]
          constructor <;> ring
        have hc2 : (⟨ax + s / 2, ay + s / 2⟩ : Vec) =
            ⟨ax + s / 2 / 2 + s / 2 / 2, ay + s / 2 / 2 + s / 2 / 2⟩ := by
          rw [Vec.mk.injEq]
          constructor <;> ring
        simp only [List.length_cons, pointToAddressAux]
        rw [if_neg ht0, if_neg ht1, hca, hbc2, hc2]
        have hprec : (⟨ax + s * (alphaOf ('2' :: rest) + betaOf ('2' :: rest) / 2),
            ay + s * (betaOf ('2' :: rest) / 2)⟩ : Vec) =
            ⟨ax + s / 2 / 2 + s / 2 * (alphaOf rest + betaOf rest / 2),
              ay + s / 2 / 2 + s / 2 * (betaOf rest / 2)⟩ := by
          rw [Vec.mk.injEq, hα, hβ]
          constructor <;> ring
        rw [hprec, ih (ax + s / 2 / 2) (ay + s / 2 / 2) (s / 2) hs2 hvr]

theorem natToBase3_length : ∀ (fuel n D : Nat), n ≤ fuel → n < 3 ^ D →
    (natToBase3 fuel n).length ≤ D := by
  intro fuel
  induction fuel with
  | zero => intro n D _ _; simp [natToBase3]
  | succ f ihf =>
      intro n D hle hlt
      by_cases hn : n = 0
      · simp [natToBase3, hn]
      · rw [natToBase3, if_neg hn]
        simp only [List.length_append, List.length_cons, List.length_nil]
        have hD : 1 ≤ D := by
          rcases Nat.eq_zero_or_pos D with h | h
          · rw [h, pow_zero] at hlt
            omega
          · exact h
        obtain ⟨D2, rfl⟩ : ∃ D2, D = D2 + 1 := ⟨D - 1, by omega⟩
        have h1 : n / 3 ≤ f := by omega
        have h2 : n / 3 < 3 ^ D2 := by
          rw [Nat.div_lt_iff_lt_mul (by norm_num : 0 < 3)]
          calc n < 3 ^ (D2 + 1) := hlt
            _ = 3 ^ D2 * 3 := by ring
        have := ihf (n / 3) D2 h1 h2
        omega

theorem natToBase3_digits : ∀ (fuel n : Nat), ∀ d ∈ natToBase3 fuel n, d < 3 := by
  intro fuel
  induction fuel with
  | zero => intro n d hd; simp [natToBase3] at hd
  | succ f ihf =>
      intro n d hd
      by_cases hn : n = 0
      · simp [natToBase3, hn] at hd
      · rw [natToBase3, if_neg hn] at hd
        rcases List.mem_append.mp hd with h | h
        · exact ihf _ _ h
        · simp only [List.mem_singleton] at h
          omega

theorem toBase3_spec (n D : Nat) (h : n < 3 ^ D) :
    ∃ ds : List Char, toBase3 n D = ⟨ds⟩ ∧ ds.length = D ∧
      ∀ c ∈ ds, c = '0' ∨ c = '1' ∨ c = '2' := by
  have hdc : ∀ d : Nat, d < 3 →
      digitChar d = '0' ∨ digitChar d = '1' ∨ digitChar d = '2' := by
    intro d hd
    interval_cases d
    · exact .inl (by decide)
    · exact .inr (.inl (by decide))
    · exact .inr (.inr (by decide))
  by_cases hn : n = 0
  · refine ⟨List.replicate D '0', ?_, List.length_replicate D '0', ?_⟩
    · rw [toBase3, if_pos hn]
    · intro c hc
      exact .inl (List.eq_of_mem_replicate hc)
  · refine ⟨List.replicate (D - (natToBase3 n n).length) '0' ++
      (natToBase3 n n).map digitChar, ?_, ?_, ?_⟩
    · simp only [toBase3]
      rw [if_neg hn]
    · have hlen := natToBase3_length n n D (le_refl n) h
      simp only [List.length_append, List.length_replicate, List.length_map]
      omega
    · intro c hc
      rcases List.mem_append.mp hc with h2 | h2
      · exact .inl (List.eq_of_mem_replicate h2)
      · obtain ⟨d, hd, rfl⟩ := List.mem_map.mp h2
        exact hdc d (natToBase3_digits n n d hd)

/-- C2: for every depth `D` in `1..8` and every integer `a` in `[0, 3^D)`,
converting the zero-padded base-3 address of width `D` to a point and back
recovers the address: `pointToAddress (addressToPoint (toBase3 a D)) D =
toBase3 a D`. -/
theorem pointToAddress_addressToPoint_inverse (D a : Nat)
    (hD1 : 1 ≤ D) (hD8 : D ≤ 8) (ha : a < 3 ^ D) :
    pointToAddress (addressToPoint (toBase3 a D)) D = toBase3 a D := by
  obtain ⟨ds, hds, hlen, hval⟩ := toBase3_spec a D ha
  rw [hds]
  have hA : vA = (⟨(0 : ℚ), 0⟩ : Vec) := rfl
  have hB : vB = (⟨(0 : ℚ) + 1, 0⟩ : Vec) := by
    rw [vB, Vec.mk.injEq]
    constructor <;> ring
  have hC : vC = (⟨(0 : ℚ) + 1 / 2, (0 : ℚ) + 1 / 2⟩ : Vec) := by
    rw [vC, Vec.mk.injEq]
    constructor <;> ring
  simp only [addressToPoint, pointToAddress]
  rw [hA, hB, hC, addressToPointAux_eq ds 0 0 1, ← hlen,
    pointToAddressAux_eq ds 0 0 1 one_pos hval]

/-- Witness for C2: the address inverse theorem applied at `D = 3`, `a = 17`. -/
theorem pointToAddress_addressToPoint_inverse_wit :
    pointToAddress (addressToPoint (toBase3 17 3)) 3 = toBase3 17 3 :=
  pointToAddress_addressToPoint_inverse 3 17 (by omega) (by omega) (by norm_num)

/-- Array.join(' ') over a token list. -/
def joinSpace : List String → String
  | [] => ""
  | [w] => w
  | w :: rest => w ++ " " ++ joinSpace rest

/-- Grammar rule (`Rule` in `mdl.ts`): the `gain` score is a number; every
value the code ever computes for it is rational, so it is embedded in `ℚ`. -/
structure Rule where
  symbol : String
  children : List String
  expansion : List String
  gain : ℚ
  frequency : Nat
deriving DecidableEq, Repr

/-- Grammar (`Grammar` in `mdl.ts`): `rules` is an insertion-ordered map from
symbol to rule, `symbols` an insertion-ordered set of registered addresses. -/
structure Grammar where
  rules : List (String × Rule)
  symbols : List String
  depth : Nat
deriving DecidableEq, Repr

/-- `createGrammar`: empty rules, empty symbols, depth 0. -/
def createGrammar : Grammar := ⟨[], [], 0⟩

/-- `addRule` (present identically in `mdl.ts` and in the grammar part of the
`encode.ts` bundle): refuse an already-registered symbol, otherwise insert the
rule, register the symbol and bump the depth. -/
def addRule (g : Grammar) (rule : Rule) : Bool × Grammar :=
  if rule.symbol ∈ g.symbols then (false, g)
  else
    (true, ⟨setA g.rules rule.symbol rule, g.symbols ++ [rule.symbol],
      max g.depth rule.symbol.length⟩)

/-- Rule lookup (`grammar.rules.get(symbol)`). -/
def Grammar.getRule (g : Grammar) (symbol : String) : Option Rule :=
  lookupA g.rules symbol

/-- `isValidPath`: the regular expression `/^[012]+$/`. -/
def isValidPath (path : String) : Bool :=
  !path.data.isEmpty && path.data.all (fun c => c == '0' || c == '1' || c == '2')

/-- Loop of `nextPath`: try `toBase3(counter, depth)` for `counter = 0, 1, …`.
The source throws once `counter` exceeds `3^depth` (checked right after the
increment), so the loop performs at most `3^depth + 1` membership tests; the
fuel argument counts exactly those tests and `nextPath` supplies `3^depth + 1`,
making fuel exhaustion coincide with the source's `throw`. -/
def nextPathAux (usedPaths : List String) (depth : Nat) : Nat → Nat → Except String String
  | 0, _ => .error "no available paths"
  | fuel + 1, counter =>
      if toBase3 counter depth ∈ usedPaths then
        nextPathAux usedPaths depth fuel (counter + 1)
      else .ok (toBase3 counter depth)

/-- `nextPath(usedPaths, depth)`: first unused base-3 rendering, throwing
(modelled as `.error`) after `3^depth + 1` used candidates. -/
def nextPath (usedPaths : List String) (depth : Nat) : Except String String :=
  nextPathAux usedPaths depth (3 ^ depth + 1) 0

/-- `nextAvailablePath`: starts at depth 1.  The source's `while` loop that
would bump the depth is unreachable — `nextPath` only ever returns a path not
in `usedPaths`, so the loop condition is false on entry — and is therefore
omitted. -/
def nextAvailablePath (usedPaths : List String) : Except String String :=
  nextPath usedPaths 1

/-- `createRule`: gain starts at 0. -/
def createRule (symbol : String) (children expansion : List String)
    (frequency : Nat) : Rule :=
  ⟨symbol, children, expansion, 0, frequency⟩

/-- `defineSymbol` (grammar part of the `encode.ts` bundle): obtain the next
unused address, build the rule, insert it.  `.ok (none, g)` is the `null`
return for an `addRule` failure; `.error` is the exception propagating out of
`nextPath` on address exhaustion. -/
def defineSymbol (g : Grammar) (children expansion : List String)
    (frequency : Nat) : Except String (Option String × Grammar) :=
  match nextAvailablePath g.symbols with
  | .error msg => .error msg
  | .ok symbol =>
      let rule := createRule symbol children expansion frequency
      match addRule g rule with
      | (true, g2) => .ok (some symbol, g2)
      | (false, g2) => .ok (none, g2)

/-- Grammar resulting from a `defineSymbol` call (the failed call leaves the
grammar unchanged). -/
def defineSymbolState (g : Grammar) (children expansion : List String)
    (frequency : Nat) : Grammar :=
  match defineSymbol g children expansion frequency with
  | .ok (_, g2) => g2
  | .error _ => g

/-- Recursive `hasCycle` helper of `hasCycles`, with the shared `visited` set
threaded through and the recursion stack passed down to the children.  The
fuel bounds the nesting depth: along any call chain the symbols on the stack
are pairwise distinct (a repeat returns `true` at once), so the depth never
exceeds the number of distinct reachable nodes, and the fuel chosen by
`hasCycles` below is never exhausted. -/
def hasCycleF (g : Grammar) : Nat → String → List String → List String → Bool × List String
  | 0, _, visited, _ => (true, visited)
  | fuel + 1, symbol, visited, recStack =>
      if symbol ∈ recStack then (true, visited)
      else if symbol ∈ visited then (false, visited)
      else
        match g.getRule symbol with
        | none => (false, symbol :: visited)
        | some rule =>
            rule.children.foldl
              (fun acc child =>
                if acc.1 then acc
                else hasCycleF g fuel child acc.2 (symbol :: recStack))
              (false, symbol :: visited)

/-- Fuel that strictly dominates the DFS nesting depth of any start symbol. -/
def grammarFuel (g : Grammar) : Nat :=
  g.symbols.length + (g.rules.map (fun r => r.2.children.length)).sum + 2

/-- `hasCycles`: depth-first search from every registered symbol with a shared
`visited` set, short-circuiting on the first cycle found. -/
def hasCycles (g : Grammar) : Bool :=
  (g.symbols.foldl
    (fun acc symbol =>
      if acc.1 then acc
      else hasCycleF g (grammarFuel g) symbol acc.2 [])
    (false, [])).1

/-- C10: if `rule.symbol` is already registered, `addRule` returns `false`
and leaves the grammar unchanged; otherwise it returns `true`, stores exactly
that rule under its symbol (other keys untouched), appends the symbol to the
symbol set, and raises the depth to `max depth (length symbol)`. -/
theorem addRule_spec (g : Grammar) (rule : Rule) :
    (rule.symbol ∈ g.symbols → addRule g rule = (false, g)) ∧
    (rule.symbol ∉ g.symbols →
      (addRule g rule).1 = true ∧
      lookupA (addRule g rule).2.rules rule.symbol = some rule ∧
      (∀ s2, s2 ≠ rule.symbol →
        lookupA (addRule g rule).2.rules s2 = lookupA g.rules s2) ∧
      (addRule g rule).2.symbols = g.symbols ++ [rule.symbol] ∧
      (addRule g rule).2.depth = max g.depth rule.symbol.length) := by
  constructor
  · intro h
    rw [addRule, if_pos h]
  · intro h
    rw [addRule, if_neg h]
    exact ⟨rfl, lookupA_setA_self _ _ _,
      fun s2 hs2 => lookupA_setA_other _ _ _ _ hs2, rfl, rfl⟩

/-- Witness for C10: adding a fresh rule to the empty grammar succeeds and a
second registration of the same symbol is refused. -/
theorem addRule_spec_wit :
    (addRule createGrammar ⟨"0", [], ["a"], 0, 1⟩).1 = true ∧
    lookupA (addRule createGrammar ⟨"0", [], ["a"], 0, 1⟩).2.rules "0" =
      some ⟨"0", [], ["a"], 0, 1⟩ ∧
    addRule ⟨[("0", ⟨"0", [], ["a"], 0, 1⟩)], ["0"], 1⟩ ⟨"0", [], ["b"], 0, 2⟩ =
      (false, ⟨[("0", ⟨"0", [], ["a"], 0, 1⟩)], ["0"], 1⟩) :=
  ⟨((addRule_spec createGrammar ⟨"0", [], ["a"], 0, 1⟩).2 (by decide)).1,
   ((addRule_spec createGrammar ⟨"0", [], ["a"], 0, 1⟩).2 (by decide)).2.1,
   (addRule_spec ⟨[("0", ⟨"0", [], ["a"], 0, 1⟩)], ["0"], 1⟩ ⟨"0", [], ["b"], 0, 2⟩).1
     (by decide)⟩

theorem nextPathAux_ok_not_mem (used : List String) (depth : Nat) :
    ∀ (fuel counter : Nat) (p : String),
      nextPathAux used depth fuel counter = .ok p → p ∉ used := by
  intro fuel
  induction fuel with
  | zero => intro counter p h; exact absurd h (by simp [nextPathAux])
  | succ f ih =>
      intro counter p h
      rw [nextPathAux] at h
      by_cases hm : toBase3 counter depth ∈ used
      · rw [if_pos hm] at h
        exact ih _ _ h
      · rw [if_neg hm] at h
        simp only [Except.ok.injEq] at h
        rw [← h]
        exact hm

theorem nextPathAux_ok_shape (used : List String) (depth : Nat) :
    ∀ (fuel counter : Nat) (p : String),
      nextPathAux used depth fuel counter = .ok p → ∃ j, p = toBase3 j depth := by
  intro fuel
  induction fuel with
  | zero => intro counter p h; exact absurd h (by simp [nextPathAux])
  | succ f ih =>
      intro counter p h
      rw [nextPathAux] at h
      by_cases hm : toBase3 counter depth ∈ used
      · rw [if_pos hm] at h
        exact ih _ _ h
      · rw [if_neg hm] at h
        simp only [Except.ok.injEq] at h
        exact ⟨counter, h.symm⟩

theorem nextPathAux_error_all (used : List String) (depth : Nat) :
    ∀ (fuel counter : Nat) (msg : String),
      nextPathAux used depth fuel counter = .error msg →
      ∀ j, counter ≤ j → j < counter + fuel → toBase3 j depth ∈ used := by
  intro fuel
  induction fuel with
  | zero => intro counter msg _ j h1 h2; omega
  | succ f ih =>
      intro counter msg h j h1 h2
      rw [nextPathAux] at h
      by_cases hm : toBase3 counter depth ∈ used
      · rw [if_pos hm] at h
        rcases Nat.eq_or_lt_of_le h1 with rfl | hlt
        · exact hm
        · exact ih (counter + 1) msg h j hlt (by omega)
      · rw [if_neg hm] at h
        exact absurd h (by simp)

theorem nextPathAux_ok_least (used : List String) (depth : Nat) :
    ∀ (fuel counter j : Nat), counter ≤ j → j < counter + fuel →
      toBase3 j depth ∉ used →
      ∃ j0, counter ≤ j0 ∧ j0 ≤ j ∧
        nextPathAux used depth fuel counter = .ok (toBase3 j0 depth) := by
  intro fuel
  induction fuel with
  | zero => intro counter j h1 h2 _; omega
  | succ f ih =>
      intro counter j h1 h2 hfree
      rw [nextPathAux]
      by_cases hm : toBase3 counter depth ∈ used
      · rw [if_pos hm]
        have hne : counter ≠ j := fun hc => hfree (hc ▸ hm)
        obtain ⟨j0, hj1, hj2, hj3⟩ := ih (counter + 1) j (by omega) (by omega) hfree
        exact ⟨j0, by omega, hj2, hj3⟩
      · rw [if_neg hm]
        exact ⟨counter, le_refl _, h1, rfl⟩

theorem defineSymbol_of_error (g : Grammar) (ch e : List String) (f : Nat) (msg : String)
    (h : nextAvailablePath g.symbols = .error msg) :
    defineSymbol g ch e f = .error msg := by
  simp only [defineSymbol, h]

theorem defineSymbol_of_ok (g : Grammar) (ch e : List String) (f : Nat) (s : String)
    (h : nextAvailablePath g.symbols = .ok s) (hs : s ∉ g.symbols) :
    defineSymbol g ch e f =
      .ok (some s, ⟨setA g.rules s (createRule s ch e f), g.symbols ++ [s],
        max g.depth s.length⟩) := by
  simp only [defineSymbol, h]
  rw [show addRule g (createRule s ch e f) =
    (true, ⟨setA g.rules s (createRule s ch e f), g.symbols ++ [s],
      max g.depth s.length⟩) from by
    rw [addRule, show (createRule s ch e f).symbol = s from rfl, if_neg hs]]

/-- C5 (amended): `defineSymbol` fails only when the whole depth-1 address
space (and the depth-2 overflow candidate `toBase3 3 1 = "10"`) is already
taken; that failure is a thrown exception propagating from `nextPath`, never a
recoverable `null` return — a successful call always yields a symbol; and
whenever some depth-1 address is free, `defineSymbol` returns an unused valid
base-3 address of depth exactly 1. -/
theorem defineSymbol_failure_spec :
    (∀ (g : Grammar) (ch e : List String) (f : Nat) (msg : String),
        defineSymbol g ch e f = .error msg →
        toBase3 0 1 ∈ g.symbols ∧ toBase3 1 1 ∈ g.symbols ∧
        toBase3 2 1 ∈ g.symbols ∧ toBase3 3 1 ∈ g.symbols) ∧
    (∀ (g : Grammar) (ch e : List String) (f : Nat) (p : Option String) (g2 : Grammar),
        defineSymbol g ch e f = .ok (p, g2) → p ≠ none) ∧
    (∀ (g : Grammar) (ch e : List String) (f : Nat) (j : Nat), j < 3 →
        toBase3 j 1 ∉ g.symbols →
        ∃ s g2, defineSymbol g ch e f = .ok (some s, g2) ∧
          s ∉ g.symbols ∧ s.length = 1 ∧ isValidPath s = true) := by
  refine ⟨?_, ?_, ?_⟩
  · intro g ch e f msg h
    cases hnp : nextAvailablePath g.symbols with
    | ok s =>
        have hs := nextPathAux_ok_not_mem g.symbols 1 (3 ^ 1 + 1) 0 s hnp
        rw [defineSymbol_of_ok g ch e f s hnp hs] at h
        exact absurd h (by simp)
    | error msg2 =>
        have hall := nextPathAux_error_all g.symbols 1 (3 ^ 1 + 1) 0 msg2 hnp
        exact ⟨hall 0 (by omega) (by norm_num), hall 1 (by omega) (by norm_num),
          hall 2 (by omega) (by norm_num), hall 3 (by omega) (by norm_num)⟩
  · intro g ch e f p g2 h
    cases hnp : nextAvailablePath g.symbols with
    | ok s =>
        have hs := nextPathAux_ok_not_mem g.symbols 1 (3 ^ 1 + 1) 0 s hnp
        rw [defineSymbol_of_ok g ch e f s hnp hs] at h
        simp only [Except.ok.injEq, Prod.mk.injEq] at h
        rw [← h.1]
        simp
    | error msg2 =>
        rw [defineSymbol_of_error g ch e f msg2 hnp] at h
        exact absurd h (by simp)
  · intro g ch e f j hj hfree
    obtain ⟨j0, hj1, hj2, hj3⟩ :=
      nextPathAux_ok_least g.symbols 1 (3 ^ 1 + 1) 0 j (by omega)
        (lt_of_lt_of_le hj (by norm_num)) hfree
    have hs := nextPathAux_ok_not_mem g.symbols 1 (3 ^ 1 + 1) 0 _ hj3
    refine ⟨toBase3 j0 1, _, defineSymbol_of_ok g ch e f _ hj3 hs, hs, ?_, ?_⟩
    · have : j0 = 0 ∨ j0 = 1 ∨ j0 = 2 := by omega
      rcases this with rfl | rfl | rfl <;> decide
    · have : j0 = 0 ∨ j0 = 1 ∨ j0 = 2 := by omega
      rcases this with rfl | rfl | rfl <;> decide

/-- Witness for C5: on a grammar with `"0"` and `"2"` registered but `"1"`
free, `defineSymbol` succeeds with a fresh depth-1 address. -/
theorem defineSymbol_failure_spec_wit :
    ∃ s g2,
      defineSymbol ⟨[], ["0", "2"], 1⟩ ["x"] ["x"] 1 = .ok (some s, g2) ∧
      s ∉ (⟨[], ["0", "2"], 1⟩ : Grammar).symbols ∧ s.length = 1 ∧
      isValidPath s = true :=
  defineSymbol_failure_spec.2.2 ⟨[], ["0", "2"], 1⟩ ["x"] ["x"] 1 1 (by omega) (by decide)

/-- Grammar reached by four successful `defineSymbol` calls on the empty
grammar: its symbols are `"0"`, `"1"`, `"2"` and the overflow address `"10"`. -/
def gExhausted : Grammar :=
  defineSymbolState
    (defineSymbolState
      (defineSymbolState (defineSymbolState createGrammar ["x"] ["x"] 1) ["x"] ["x"] 1)
      ["x"] ["x"] 1)
    ["x"] ["x"] 1

/-- C5 counterexample: after four `defineSymbol` calls the fifth one throws
(`.error`, the modelled exception) instead of returning a recoverable
no-symbol result, and no retry at depth 2 happens even though almost every
depth-2 address is free. -/
theorem defineSymbol_exhaustion_cex :
    gExhausted.symbols = ["0", "1", "2", "10"] ∧
    defineSymbol gExhausted ["x"] ["x"] 1 = .error "no available paths" := by
  constructor
  · rfl
  · rfl

/-- Position-based rank of a symbol in the rules list: `1 +` the index of its
first binding, `0` if absent.  Children of a rule defined by `defineSymbol`
always have smaller rank than the rule's own symbol, which is the
well-foundedness argument behind cycle-freeness. -/
def rankIn : List (String × Rule) → String → Nat
  | [], _ => 0
  | (k, _) :: rest, s =>
      if k = s then 1
      else
        match rankIn rest s with
        | 0 => 0
        | m + 1 => m + 2

theorem lookupA_some_mem {α β : Type} [DecidableEq α] :
    ∀ (l : List (α × β)) (s : α) (r : β),
      lookupA l s = some r → s ∈ l.map Prod.fst := by
  intro l
  induction l with
  | nil => intro s r h; exact absurd h (by simp [lookupA])
  | cons p rest ih =>
      intro s r h
      obtain ⟨k, v⟩ := p
      rw [lookupA] at h
      by_cases hk : k = s
      · simp [hk]
      · rw [if_neg hk] at h
        simp only [List.map_cons, List.mem_cons]
        exact .inr (ih s r h)

theorem rankIn_pos_of_lookupA : ∀ (rules : List (String × Rule)) (s : String) (r : Rule),
    lookupA rules s = some r → 1 ≤ rankIn rules s := by
  intro rules
  induction rules with
  | nil => intro s r h; exact absurd h (by simp [lookupA])
  | cons p rest ih =>
      intro s r h
      obtain ⟨k, v⟩ := p
      rw [lookupA] at h
      rw [rankIn]
      by_cases hk : k = s
      · rw [if_pos hk]
      · rw [if_neg hk] at h ⊢
        have := ih s r h
        obtain ⟨m, hm⟩ : ∃ m, rankIn rest s = m + 1 := ⟨rankIn rest s - 1, by omega⟩
        simp [hm]

theorem rankIn_eq_zero_of_not_mem : ∀ (rules : List (String × Rule)) (s : String),
    s ∉ rules.map Prod.fst → rankIn rules s = 0 := by
  intro rules
  induction rules with
  | nil => intro s _; rfl
  | cons p rest ih =>
      intro s h
      obtain ⟨k, v⟩ := p
      simp only [List.map_cons, List.mem_cons] at h
      push_neg at h
      rw [rankIn, if_neg (fun hc => h.1 hc.symm), ih s h.2]

theorem rankIn_le_length : ∀ (rules : List (String × Rule)) (s : String),
    rankIn rules s ≤ rules.length := by
  intro rules
  induction rules with
  | nil => intro s; simp [rankIn]
  | cons p rest ih =>
      intro s
      obtain ⟨k, v⟩ := p
      rw [rankIn]
      by_cases hk : k = s
      · rw [if_pos hk]
        simp
      · rw [if_neg hk]
        have := ih s
        cases hm : rankIn rest s with
        | zero => simp
        | succ m =>
            rw [hm] at this
            simp only [List.length_cons]
            omega

/-- Chain invariant of a rules list: every rule only references keys bound
strictly earlier (or strings that are not valid base-3 paths at all). -/
def ChainInv : List String → List (String × Rule) → Prop
  | _, [] => True
  | done, (k, r) :: rest =>
      (∀ c ∈ r.children, c ∈ done ∨ isValidPath c = false) ∧ ChainInv (done ++ [k]) rest

/-- Invariant of every grammar reachable through `defineSymbol`. -/
structure GInv (g : Grammar) : Prop where
  syms : g.symbols = g.rules.map Prod.fst
  nodup : g.symbols.Nodup
  valid : ∀ s ∈ g.symbols, isValidPath s = true
  chain : ChainInv [] g.rules

theorem ChainInv_append : ∀ (rules : List (String × Rule)) (done : List String)
    (k : String) (r : Rule),
    ChainInv done rules →
    (∀ c ∈ r.children, c ∈ done ++ rules.map Prod.fst ∨ isValidPath c = false) →
    ChainInv done (rules ++ [(k, r)]) := by
  intro rules
  induction rules with
  | nil =>
      intro done k r _ hc
      exact ⟨fun c hc2 => by simpa using hc c hc2, trivial⟩
  | cons p rest ih =>
      intro done k r hchain hc
      obtain ⟨k0, r0⟩ := p
      obtain ⟨h1, h2⟩ := hchain
      refine ⟨h1, ih (done ++ [k0]) k r h2 ?_⟩
      intro c hc2
      rcases hc c hc2 with hmem | hinv
      · left
        simp only [List.map_cons, List.mem_append, List.mem_cons,
          List.mem_singleton] at hmem ⊢
        tauto
      · exact .inr hinv

theorem chain_rank : ∀ (rules : List (String × Rule)) (done : List String)
    (s : String) (r : Rule),
    ChainInv done rules → (rules.map Prod.fst).Nodup →
    (∀ k ∈ rules.map Prod.fst, k ∉ done) →
    lookupA rules s = some r →
    ∀ c ∈ r.children, c ∈ done ∨ isValidPath c = false ∨
      rankIn rules c < rankIn rules s := by
  intro rules
  induction rules with
  | nil => intro done s r _ _ _ h; exact absurd h (by simp [lookupA])
  | cons p rest ih =>
      intro done s r hchain hnodup hnotdone hlook c hc
      obtain ⟨k0, r0⟩ := p
      obtain ⟨hch0, hchain2⟩ := hchain
      simp only [List.map_cons, List.nodup_cons] at hnodup
      obtain ⟨hk0notin, hnodup2⟩ := hnodup
      rw [lookupA] at hlook
      by_cases hks : k0 = s
      · rw [if_pos hks] at hlook
        simp only [Option.some.injEq] at hlook
        subst hlook
        rcases hch0 c hc with hmem | hinv
        · exact .inl hmem
        · exact .inr (.inl hinv)
      · rw [if_neg hks] at hlook
        have hranks := rankIn_pos_of_lookupA rest s r hlook
        have hnotdone2 : ∀ k ∈ rest.map Prod.fst, k ∉ done ++ [k0] := by
          intro k hk
          simp only [List.mem_append, List.mem_singleton]
          rintro (hkd | rfl)
          · exact hnotdone k (by simp [hk]) hkd
          · exact hk0notin hk
        have hmain := ih (done ++ [k0]) s r hchain2 hnodup2 hnotdone2 hlook c hc
        have hrs : rankIn ((k0, r0) :: rest) s = rankIn rest s + 1 := by
          rw [rankIn, if_neg hks]
          obtain ⟨m, hm⟩ : ∃ m, rankIn rest s = m + 1 := ⟨rankIn rest s - 1, by omega⟩
          rw [hm]
        rcases hmain with hmem | hinv | hlt
        · rcases List.mem_append.mp hmem with hd | hk0
          · exact .inl hd
          · right
            right
            rw [List.mem_singleton] at hk0
            subst hk0
            rw [rankIn, if_pos rfl, hrs]
            omega
        · exact .inr (.inl hinv)
        · right
          right
          rw [hrs]
          by_cases hkc : k0 = c
          · rw [rankIn, if_pos hkc]
            omega
          · rw [rankIn, if_neg hkc]
            cases hmc : rankIn rest c with
            | zero => simp only [hmc]; omega
            | succ m =>
                rw [hmc] at hlt
                simp only [hmc]
                omega

theorem natToBase3_ne_nil (fuel n : Nat) (hn : n ≠ 0) (hf : 1 ≤ fuel) :
    natToBase3 fuel n ≠ [] := by
  obtain ⟨f, rfl⟩ : ∃ f, fuel = f + 1 := ⟨fuel - 1, by omega⟩
  rw [natToBase3, if_neg hn]
  simp

theorem toBase3_shape (n D : Nat) (hD : 1 ≤ D) :
    ∃ ds : List Char, toBase3 n D = ⟨ds⟩ ∧ ds ≠ [] ∧
      ∀ c ∈ ds, c = '0' ∨ c = '1' ∨ c = '2' := by
  have hdc : ∀ d : Nat, d < 3 →
      digitChar d = '0' ∨ digitChar d = '1' ∨ digitChar d = '2' := by
    intro d hd
    interval_cases d
    · exact .inl (by decide)
    · exact .inr (.inl (by decide))
    · exact .inr (.inr (by decide))
  by_cases hn : n = 0
  · refine ⟨List.replicate D '0', by rw [toBase3, if_pos hn], ?_, ?_⟩
    · intro h
      have := congrArg List.length h
      simp at this
      omega
    · intro c hc
      exact .inl (List.eq_of_mem_replicate hc)
  · refine ⟨List.replicate (D - (natToBase3 n n).length) '0' ++
      (natToBase3 n n).map digitChar, ?_, ?_, ?_⟩
    · simp only [toBase3]
      rw [if_neg hn]
    · intro h
      rcases List.append_eq_nil.mp h with ⟨-, h2⟩
      exact natToBase3_ne_nil n n hn (by omega) (List.map_eq_nil.mp h2)
    · intro c hc
      rcases List.mem_append.mp hc with h2 | h2
      · exact .inl (List.eq_of_mem_replicate h2)
      · obtain ⟨d, hd, rfl⟩ := List.mem_map.mp h2
        exact hdc d (natToBase3_digits n n d hd)

theorem isValidPath_toBase3 (n D : Nat) (hD : 1 ≤ D) :
    isValidPath (toBase3 n D) = true := by
  obtain ⟨ds, hds, hne, hval⟩ := toBase3_shape n D hD
  rw [hds, isValidPath]
  simp only [Bool.and_eq_true, Bool.not_eq_true', List.all_eq_true]
  refine ⟨?_, ?_⟩
  · cases ds with
    | nil => exact absurd rfl hne
    | cons c cs => rfl
  · intro c hc
    rcases hval c hc with rfl | rfl | rfl <;> rfl

theorem setA_append {α β : Type} [DecidableEq α] :
    ∀ (l : List (α × β)) (k : α) (v : β),
      k ∉ l.map Prod.fst → setA l k v = l ++ [(k, v)] := by
  intro l
  induction l with
  | nil => intro k v _; rfl
  | cons p rest ih =>
      intro k v h
      obtain ⟨k1, v1⟩ := p
      simp only [List.map_cons, List.mem_cons] at h
      push_neg at h
      rw [setA, if_neg (fun hc => h.1 hc.symm), ih k v h.2]
      rfl

theorem nodup_concat (l : List String) (x : String) (h1 : l.Nodup) (h2 : x ∉ l) :
    (l ++ [x]).Nodup := by
  rw [List.nodup_append]
  refine ⟨h1, List.nodup_singleton x, ?_⟩
  intro a ha hax
  rw [List.mem_singleton] at hax
  subst hax
  exact h2 ha

/-- Grammars reachable from the empty grammar by `defineSymbol` calls whose
children are previously defined symbols or strings that are not base-3
address strings. -/
inductive BuiltOK : Grammar → Prop
  | nil : BuiltOK createGrammar
  | step (g : Grammar) (ch e : List String) (f : Nat) (s : Option String) (g2 : Grammar)
      (hb : BuiltOK g)
      (hch : ∀ c ∈ ch, c ∈ g.symbols ∨ isValidPath c = false)
      (hd : defineSymbol g ch e f = .ok (s, g2)) : BuiltOK g2

theorem ginv_createGrammar : GInv createGrammar :=
  ⟨rfl, List.nodup_nil, fun s hs => absurd hs (List.not_mem_nil s), trivial⟩

theorem ginv_step (g : Grammar) (ch e : List String) (f : Nat) (s : Option String)
    (g2 : Grammar) (hg : GInv g)
    (hch : ∀ c ∈ ch, c ∈ g.symbols ∨ isValidPath c = false)
    (hd : defineSymbol g ch e f = .ok (s, g2)) : GInv g2 := by
  cases hnp : nextAvailablePath g.symbols with
  | error msg =>
      rw [defineSymbol_of_error g ch e f msg hnp] at hd
      exact absurd hd (by simp)
  | ok sym =>
      have hsnot := nextPathAux_ok_not_mem g.symbols 1 _ 0 sym hnp
      rw [defineSymbol_of_ok g ch e f sym hnp hsnot] at hd
      simp only [Except.ok.injEq, Prod.mk.injEq] at hd
      obtain ⟨hsym, hg2⟩ := hd
      subst hg2
      have hsym1 : ∃ j, sym = toBase3 j 1 := nextPathAux_ok_shape g.symbols 1 _ 0 sym hnp
      have hsymvalid : isValidPath sym = true := by
        obtain ⟨j, rfl⟩ := hsym1
        exact isValidPath_toBase3 j 1 (le_refl 1)
      have hset : setA g.rules sym (createRule sym ch e f) =
          g.rules ++ [(sym, createRule sym ch e f)] :=
        setA_append g.rules sym _ (by rw [← hg.syms]; exact hsnot)
      refine ⟨?_, ?_, ?_, ?_⟩
      · show g.symbols ++ [sym] = (setA g.rules sym (createRule sym ch e f)).map Prod.fst
        rw [hset, List.map_append, hg.syms]
        rfl
      · exact nodup_concat g.symbols sym hg.nodup hsnot
      · intro s2 hs2
        rcases List.mem_append.mp hs2 with h2 | h2
        · exact hg.valid s2 h2
        · rw [List.mem_singleton] at h2
          subst h2
          exact hsymvalid
      · show ChainInv [] (setA g.rules sym (createRule sym ch e f))
        rw [hset]
        apply ChainInv_append g.rules [] sym _ hg.chain
        intro c hc
        rcases hch c hc with hmem | hinv
        · left
          rw [hg.syms] at hmem
          simpa using hmem
        · exact .inr hinv

theorem builtOK_ginv : ∀ g : Grammar, BuiltOK g → GInv g := by
  intro g hb
  induction hb with
  | nil => exact ginv_createGrammar
  | step g ch e f s g2 hb hch hd ih => exact ginv_step g ch e f s g2 ih hch hd

theorem ginv_rcp (g : Grammar) (hg : GInv g) :
    ∀ s r, g.getRule s = some r → ∀ c ∈ r.children,
      rankIn g.rules c < rankIn g.rules s := by
  intro s r hrule c hc
  have hnodup : (g.rules.map Prod.fst).Nodup := by
    rw [← hg.syms]
    exact hg.nodup
  have h := chain_rank g.rules [] s r hg.chain hnodup (by simp) hrule c hc
  rcases h with hmem | hinv | hlt
  · exact absurd hmem (List.not_mem_nil c)
  · have hcnot : c ∉ g.rules.map Prod.fst := by
      rw [← hg.syms]
      intro hmem
      rw [hg.valid c hmem] at hinv
      exact absurd hinv (by simp)
    rw [rankIn_eq_zero_of_not_mem g.rules c hcnot]
    exact rankIn_pos_of_lookupA g.rules s r hrule
  · exact hlt

theorem cycle_fold_cons (g : Grammar) (f : Nat) (rs : List String) (c : String)
    (cs : List String) (v0 : List String) :
    (c :: cs).foldl
      (fun acc child => if acc.1 then acc else hasCycleF g f child acc.2 rs)
      (false, v0) =
    cs.foldl (fun acc child => if acc.1 then acc else hasCycleF g f child acc.2 rs)
      (hasCycleF g f c v0 rs) := by
  rw [List.foldl_cons]
  congr 1

theorem cycles_fold_cons (g : Grammar) (s : String) (ss : List String) (v0 : List String) :
    (s :: ss).foldl
      (fun acc symbol => if acc.1 then acc
        else hasCycleF g (grammarFuel g) symbol acc.2 []) (false, v0) =
    ss.foldl (fun acc symbol => if acc.1 then acc
      else hasCycleF g (grammarFuel g) symbol acc.2 [])
      (hasCycleF g (grammarFuel g) s v0 []) := by
  rw [List.foldl_cons]
  congr 1

/-- The DFS returns `false` whenever every rule's children have strictly
smaller rank than the rule's symbol (so the reference graph is well-founded):
the recursion stack only ever holds symbols of strictly larger rank, hence is
never revisited. -/
theorem hasCycleF_false : ∀ (fuel : Nat) (g : Grammar),
    (∀ s r, g.getRule s = some r → ∀ c ∈ r.children,
      rankIn g.rules c < rankIn g.rules s) →
    ∀ (s : String) (visited recStack : List String),
      rankIn g.rules s < fuel →
      (∀ x ∈ recStack, rankIn g.rules s < rankIn g.rules x) →
      ∃ v2, hasCycleF g fuel s visited recStack = (false, v2) := by
  intro fuel
  induction fuel with
  | zero => intro g _ s _ _ h _; omega
  | succ f ih =>
      intro g hrcp s visited recStack hrank hstack
      have hs : s ∉ recStack := fun hmem => absurd (hstack s hmem) (lt_irrefl _)
      rw [hasCycleF, if_neg hs]
      by_cases hv : s ∈ visited
      · rw [if_pos hv]
        exact ⟨visited, rfl⟩
      · rw [if_neg hv]
        cases hrule : g.getRule s with
        | none => exact ⟨s :: visited, rfl⟩
        | some rule =>
            have hchild := hrcp s rule hrule
            have hfold : ∀ (cs : List String),
                (∀ c ∈ cs, rankIn g.rules c < rankIn g.rules s) →
                ∀ v0, ∃ v2, cs.foldl
                  (fun acc child => if acc.1 then acc
                    else hasCycleF g f child acc.2 (s :: recStack)) (false, v0) =
                  (false, v2) := by
              intro cs
              induction cs with
              | nil => intro _ v0; exact ⟨v0, rfl⟩
              | cons c cs2 ihc =>
                  intro hcs v0
                  have hcrank := hcs c (List.mem_cons_self c cs2)
                  obtain ⟨v1, hv1⟩ := ih g hrcp c v0 (s :: recStack) (by omega)
                    (by
                      intro x hx
                      rcases List.mem_cons.mp hx with rfl | hx2
                      · exact hcrank
                      · exact lt_trans hcrank (hstack x hx2))
                  obtain ⟨v2, hv2⟩ :=
                    ihc (fun c2 hc2 => hcs c2 (List.mem_cons_of_mem _ hc2)) v1
                  refine ⟨v2, ?_⟩
                  rw [cycle_fold_cons, hv1]
                  exact hv2
            exact hfold rule.children hchild (s :: visited)

theorem hasCycles_of_rcp (g : Grammar)
    (hrcp : ∀ s r, g.getRule s = some r → ∀ c ∈ r.children,
      rankIn g.rules c < rankIn g.rules s)
    (hfuel : ∀ s, rankIn g.rules s < grammarFuel g) :
    hasCycles g = false := by
  rw [hasCycles]
  suffices h : ∀ (ss : List String) (v0 : List String),
      (ss.foldl (fun acc symbol => if acc.1 then acc
        else hasCycleF g (grammarFuel g) symbol acc.2 []) (false, v0)).1 = false by
    exact h g.symbols []
  intro ss
  induction ss with
  | nil => intro v0; rfl
  | cons s ss2 ihs =>
      intro v0
      obtain ⟨v1, hv1⟩ := hasCycleF_false (grammarFuel g) g hrcp s v0 [] (hfuel s)
        (fun x hx => absurd hx (List.not_mem_nil x))
      rw [cycles_fold_cons, hv1]
      exact ihs v1

/-- C4 (amended): after any sequence of `defineSymbol` calls on an initially
empty grammar in which every child passed is either a previously defined
symbol of the grammar or a raw token that is not itself a base-3 address
string (so it can never collide with an assigned symbol), `hasCycles` returns
`false`. -/
theorem hasCycles_built_false (g : Grammar) (hb : BuiltOK g) : hasCycles g = false := by
  have hg := builtOK_ginv g hb
  apply hasCycles_of_rcp g (ginv_rcp g hg)
  intro s
  have h1 := rankIn_le_length g.rules s
  have h2 : g.symbols.length = g.rules.length := by
    rw [hg.syms, List.length_map]
  simp only [grammarFuel]
  omega

/-- Witness for C4: one `defineSymbol` call with raw-token children produces
an acyclic grammar. -/
theorem hasCycles_built_false_wit :
    hasCycles (defineSymbolState createGrammar ["the", "cat"] ["the", "cat"] 2) = false :=
  hasCycles_built_false _
    (BuiltOK.step createGrammar ["the", "cat"] ["the", "cat"] 2 (some "0") _
      BuiltOK.nil (by decide) rfl)

/-- C4 counterexample: passing the raw token `"0"` as a child — a string that
is not a previously defined symbol of the (empty) grammar — yields a rule
whose own freshly assigned address is `"0"`, a self-loop, and `hasCycles`
reports `true`. -/
theorem hasCycles_defineSymbol_cex :
    ("0" ∉ createGrammar.symbols) ∧
    hasCycles (defineSymbolState createGrammar ["0"] ["0"] 1) = true :=
  ⟨by decide, by rfl⟩

/-- `ruleCost(rule, lambda)` from `mdl.ts`: definition overhead 3, plus symbol
length, plus 2 per child, plus the space-joined expansion length, times the
penalty factor. -/
def ruleCost (rule : Rule) (lambda : ℚ) : ℚ :=
  ((3 : ℚ) + rule.symbol.length + rule.children.length * 2 +
    (joinSpace rule.expansion).length) * lambda

/-- `ruleSavings(rule, frequency)` from `mdl.ts`. -/
def ruleSavings (rule : Rule) (frequency : Nat) : ℚ :=
  (((joinSpace rule.expansion).length : ℚ) - rule.symbol.length) * frequency

/-- `mdlGain = savings − cost`. -/
def mdlGain (rule : Rule) (frequency : Nat) (lambda : ℚ) : ℚ :=
  ruleSavings rule frequency - ruleCost rule lambda

/-- Loop body of `findBestRule`: keep the strictly best gain seen so far (the
source's `bestGain = -Infinity` start is the `none` accumulator, which any
finite gain beats). -/
def bestStep (lambda : ℚ) (acc : Option (Rule × Nat × ℚ)) (c : Rule × Nat) :
    Option (Rule × Nat × ℚ) :=
  let gain := mdlGain c.1 c.2 lambda
  match acc with
  | none => some (c.1, c.2, gain)
  | some b => if b.2.2 < gain then some (c.1, c.2, gain) else acc

/-- `findBestRule`: best candidate by MDL gain, or `null` when the best gain
is not positive. -/
def findBestRule (candidates : List (Rule × Nat)) (lambda : ℚ) :
    Option (Rule × Nat × ℚ) :=
  match candidates.foldl (bestStep lambda) none with
  | none => none
  | some b => if 0 < b.2.2 then some b else none

theorem bestStep_isSome (lambda : ℚ) (acc : Option (Rule × Nat × ℚ)) (c : Rule × Nat) :
    ∃ b, bestStep lambda acc c = some b := by
  cases acc with
  | none => exact ⟨(c.1, c.2, mdlGain c.1 c.2 lambda), rfl⟩
  | some b0 =>
      rw [bestStep]
      by_cases h : b0.2.2 < mdlGain c.1 c.2 lambda
      · rw [if_pos h]
        exact ⟨_, rfl⟩
      · rw [if_neg h]
        exact ⟨b0, rfl⟩

theorem bestFold_none (lambda : ℚ) :
    ∀ (cs : List (Rule × Nat)) (acc : Option (Rule × Nat × ℚ)),
      cs.foldl (bestStep lambda) acc = none → cs = [] ∧ acc = none := by
  intro cs
  induction cs with
  | nil => intro acc h; exact ⟨rfl, h⟩
  | cons c cs2 ih =>
      intro acc h
      rw [List.foldl_cons] at h
      obtain ⟨-, h2⟩ := ih (bestStep lambda acc c) h
      obtain ⟨b, hb⟩ := bestStep_isSome lambda acc c
      rw [hb] at h2
      exact absurd h2 (by simp)

theorem bestFold_shape (lambda : ℚ) :
    ∀ (cs : List (Rule × Nat)) (acc : Option (Rule × Nat × ℚ)) (p : Rule × Nat × ℚ),
      cs.foldl (bestStep lambda) acc = some p →
      acc = some p ∨ ∃ c ∈ cs, p = (c.1, c.2, mdlGain c.1 c.2 lambda) := by
  intro cs
  induction cs with
  | nil => intro acc p h; exact .inl h
  | cons c cs2 ih =>
      intro acc p h
      rw [List.foldl_cons] at h
      rcases ih (bestStep lambda acc c) p h with hacc | ⟨c2, hc2, hp⟩
      · cases hacc2 : acc with
        | none =>
            rw [hacc2] at hacc
            rw [show bestStep lambda none c = some (c.1, c.2, mdlGain c.1 c.2 lambda)
              from rfl] at hacc
            simp only [Option.some.injEq] at hacc
            exact .inr ⟨c, List.mem_cons_self c cs2, hacc.symm⟩
        | some b0 =>
            rw [hacc2, bestStep] at hacc
            by_cases hlt : b0.2.2 < mdlGain c.1 c.2 lambda
            · rw [if_pos hlt] at hacc
              simp only [Option.some.injEq] at hacc
              exact .inr ⟨c, List.mem_cons_self c cs2, hacc.symm⟩
            · rw [if_neg hlt] at hacc
              exact .inl hacc
      · exact .inr ⟨c2, List.mem_cons_of_mem _ hc2, hp⟩

theorem bestFold_max (lambda : ℚ) :
    ∀ (cs : List (Rule × Nat)) (acc : Option (Rule × Nat × ℚ)) (p : Rule × Nat × ℚ),
      cs.foldl (bestStep lambda) acc = some p →
      (∀ c ∈ cs, mdlGain c.1 c.2 lambda ≤ p.2.2) ∧
      (∀ b, acc = some b → b.2.2 ≤ p.2.2) := by
  intro cs
  induction cs with
  | nil =>
      intro acc p h
      refine ⟨fun c hc => absurd hc (List.not_mem_nil c), fun b hb => ?_⟩
      rw [hb] at h
      simp only [List.foldl_nil, Option.some.injEq] at h
      rw [h]
  | cons c cs2 ih =>
      intro acc p h
      rw [List.foldl_cons] at h
      obtain ⟨hall2, hacc2⟩ := ih (bestStep lambda acc c) p h
      have hstep : ∀ b, bestStep lambda acc c = some b →
          mdlGain c.1 c.2 lambda ≤ b.2.2 ∧ (∀ b0, acc = some b0 → b0.2.2 ≤ b.2.2) := by
        intro b hb
        cases hacc : acc with
        | none =>
            rw [hacc] at hb
            rw [show bestStep lambda none c = some (c.1, c.2, mdlGain c.1 c.2 lambda)
              from rfl] at hb
            simp only [Option.some.injEq] at hb
            rw [← hb]
            exact ⟨le_refl _, fun b0 hb0 => absurd hb0 (by simp)⟩
        | some b0 =>
            rw [hacc, bestStep] at hb
            by_cases hlt : b0.2.2 < mdlGain c.1 c.2 lambda
            · rw [if_pos hlt] at hb
              simp only [Option.some.injEq] at hb
              rw [← hb]
              refine ⟨le_refl _, fun b1 hb1 => ?_⟩
              simp only [Option.some.injEq] at hb1
              rw [← hb1]
              exact le_of_lt hlt
            · rw [if_neg hlt] at hb
              simp only [Option.some.injEq] at hb
              subst hb
              refine ⟨le_of_not_lt hlt, fun b1 hb1 => ?_⟩
              simp only [Option.some.injEq] at hb1
              rw [hb1]
      obtain ⟨b, hb⟩ := bestStep_isSome lambda acc c
      obtain ⟨hcb, haccb⟩ := hstep b hb
      have hbp : b.2.2 ≤ p.2.2 := hacc2 b hb
      refine ⟨?_, fun b0 hb0 => le_trans (haccb b0 hb0) hbp⟩
      intro c2 hc2
      rcases List.mem_cons.mp hc2 with rfl | hc3
      · exact le_trans hcb hbp
      · exact hall2 c2 hc3

theorem findBestRule_none_red (candidates : List (Rule × Nat)) (lambda : ℚ)
    (hb : candidates.foldl (bestStep lambda) none = none) :
    findBestRule candidates lambda = none := by
  rw [findBestRule, hb]

theorem findBestRule_some_red (candidates : List (Rule × Nat)) (lambda : ℚ)
    (b : Rule × Nat × ℚ)
    (hb : candidates.foldl (bestStep lambda) none = some b) :
    findBestRule candidates lambda = if 0 < b.2.2 then some b else none := by
  rw [findBestRule, hb]

/-- C7: `findBestRule` returns none exactly when every candidate's MDL gain is
non-positive, where `mdlGain = ruleSavings − ruleCost`,
`ruleCost(rule, λ) = λ × (3 + len(symbol) + 2×len(children) +
len(join(expansion, " ")))` and `ruleSavings(rule, freq) =
(len(join(expansion, " ")) − len(symbol)) × freq`; otherwise it returns a
candidate of maximal MDL gain among the batch. -/
theorem findBestRule_spec :
    (∀ (rule : Rule) (lambda : ℚ) (frequency : Nat),
        ruleCost rule lambda = lambda * (3 + rule.symbol.length +
          2 * rule.children.length + (joinSpace rule.expansion).length) ∧
        ruleSavings rule frequency =
          (((joinSpace rule.expansion).length : ℚ) - rule.symbol.length) * frequency ∧
        mdlGain rule frequency lambda =
          ruleSavings rule frequency - ruleCost rule lambda) ∧
    (∀ (candidates : List (Rule × Nat)) (lambda : ℚ),
        findBestRule candidates lambda = none ↔
          ∀ c ∈ candidates, mdlGain c.1 c.2 lambda ≤ 0) ∧
    (∀ (candidates : List (Rule × Nat)) (lambda : ℚ) (r : Rule) (f : Nat) (gn : ℚ),
        findBestRule candidates lambda = some (r, f, gn) →
          (r, f) ∈ candidates ∧ gn = mdlGain r f lambda ∧ 0 < gn ∧
          ∀ c ∈ candidates, mdlGain c.1 c.2 lambda ≤ gn) := by
  refine ⟨?_, ?_, ?_⟩
  · intro rule lambda frequency
    refine ⟨?_, rfl, rfl⟩
    rw [ruleCost]
    ring
  · intro candidates lambda
    constructor
    · intro h c hc
      cases hb : candidates.foldl (bestStep lambda) none with
      | none =>
          obtain ⟨hnil, -⟩ := bestFold_none lambda candidates none hb
          rw [hnil] at hc
          exact absurd hc (List.not_mem_nil c)
      | some b =>
          rw [findBestRule_some_red candidates lambda b hb] at h
          by_cases hpos : 0 < b.2.2
          · rw [if_pos hpos] at h
            exact absurd h (by simp)
          · have hle := (bestFold_max lambda candidates none b hb).1 c hc
            linarith [le_of_not_lt hpos]
    · intro h
      cases hb : candidates.foldl (bestStep lambda) none with
      | none => exact findBestRule_none_red candidates lambda hb
      | some b =>
          rw [findBestRule_some_red candidates lambda b hb]
          rcases bestFold_shape lambda candidates none b hb with habs | ⟨c, hc, hp⟩
          · exact absurd habs (by simp)
          · have hle := h c hc
            have hnp : ¬ 0 < b.2.2 := by
              rw [hp]
              exact not_lt.mpr hle
            rw [if_neg hnp]
  · intro candidates lambda r f gn h
    cases hb : candidates.foldl (bestStep lambda) none with
    | none =>
        rw [findBestRule_none_red candidates lambda hb] at h
        exact absurd h (by simp)
    | some b =>
        rw [findBestRule_some_red candidates lambda b hb] at h
        by_cases hpos : 0 < b.2.2
        · rw [if_pos hpos] at h
          simp only [Option.some.injEq] at h
          subst h
          rcases bestFold_shape lambda candidates none (r, f, gn) hb with habs | ⟨c, hc, hp⟩
          · exact absurd habs (by simp)
          · simp only [Prod.mk.injEq] at hp
            obtain ⟨h1, h2, h3⟩ := hp
            subst h1
            subst h2
            subst h3
            exact ⟨hc, rfl, hpos, (bestFold_max lambda candidates none _ hb).1⟩
        · rw [if_neg hpos] at h
          exact absurd h (by simp)

/-- Candidate rule used by the C7 witness. -/
def wRule : Rule := ⟨"00", ["a", "b"], ["hello", "world"], 0, 5⟩

/-- Witness for C7: on a singleton batch with positive gain, `findBestRule`
returns that candidate with its MDL gain `(11 − 2)·5 − (3 + 2 + 4 + 11) = 25`. -/
theorem findBestRule_spec_wit :
    (wRule, 5) ∈ [(wRule, 5)] ∧ (25 : ℚ) = mdlGain wRule 5 1 ∧ (0 : ℚ) < 25 ∧
      ∀ c ∈ [(wRule, 5)], mdlGain c.1 c.2 1 ≤ 25 :=
  findBestRule_spec.2.2 [(wRule, 5)] 1 wRule 5 25 (by
    have hg : mdlGain wRule 5 1 = 25 := by
      rw [mdlGain, ruleSavings, ruleCost]
      rw [show joinSpace wRule.expansion = "hello world" from rfl]
      rw [show ("hello world" : String).length = 11 from rfl]
      rw [show wRule.symbol.length = 2 from rfl]
      rw [show wRule.children.length = 2 from rfl]
      norm_num
    have h1 : [(wRule, 5)].foldl (bestStep 1) none =
        some (wRule, 5, mdlGain wRule 5 1) := rfl
    rw [findBestRule_some_red [(wRule, 5)] 1 (wRule, 5, mdlGain wRule 5 1) h1]
    rw [show ((wRule, 5, mdlGain wRule 5 1) : Rule × Nat × ℚ).2.2 =
      mdlGain wRule 5 1 from rfl, hg]
    norm_num)

/-- `Pair` from `repair.ts`. -/
structure Pair where
  left : String
  right : String
  frequency : Nat
  gain : ℚ
deriving DecidableEq, Repr

/-- The `while` loop of `replacePair` in `repair.ts`, indexed by the scan
position `i`; `fuel` bounds the iteration count (the loop advances `i` by at
least 1 each pass, so `stream.length` passes suffice). -/
def replacePairAux (stream : List String) (pair : Pair) (newSymbol : String) :
    Nat → Nat → List String
  | _, 0 => []
  | i, fuel + 1 =>
      if i < stream.length then
        if i < stream.length - 1 ∧ stream.getD i "" = pair.left ∧
            stream.getD (i + 1) "" = pair.right then
          newSymbol :: replacePairAux stream pair newSymbol (i + 2) fuel
        else
          stream.getD i "" :: replacePairAux stream pair newSymbol (i + 1) fuel
      else []

/-- `replacePair(stream, pair, newSymbol)` from `repair.ts`. -/
def replacePair (stream : List String) (pair : Pair) (newSymbol : String) :
    List String :=
  replacePairAux stream pair newSymbol 0 stream.length

/-- Modelled from the spec's words: replace the non-overlapping left-to-right
occurrences of the adjacent pair with the new symbol, leaving every other
element unchanged in order. -/
def replacePairSpec (pair : Pair) (newSymbol : String) : List String → List String
  | [] => []
  | [w] => [w]
  | w1 :: w2 :: rest =>
      if w1 = pair.left ∧ w2 = pair.right then
        newSymbol :: replacePairSpec pair newSymbol rest
      else
        w1 :: replacePairSpec pair newSymbol (w2 :: rest)

theorem replacePairSpec_cons2 (pair : Pair) (s w1 w2 : String) (rest : List String) :
    replacePairSpec pair s (w1 :: w2 :: rest) =
      if w1 = pair.left ∧ w2 = pair.right then s :: replacePairSpec pair s rest
      else w1 :: replacePairSpec pair s (w2 :: rest) := rfl

theorem replacePairAux_eq_spec (stream : List String) (pair : Pair) (s : String) :
    ∀ (fuel i : Nat), stream.length ≤ i + fuel →
      replacePairAux stream pair s i fuel = replacePairSpec pair s (stream.drop i) := by
  intro fuel
  induction fuel with
  | zero =>
      intro i hle
      rw [Nat.add_zero] at hle
      rw [List.drop_eq_nil_of_le hle]
      rfl
  | succ fuel ih =>
      intro i hle
      by_cases hi : i < stream.length
      · have hdrop : stream.drop i = stream[i] :: stream.drop (i + 1) :=
          List.drop_eq_getElem_cons hi
        have hgd : stream.getD i "" = stream[i] := List.getD_eq_getElem stream "" hi
        by_cases hi1 : i + 1 < stream.length
        · have hdrop1 : stream.drop (i + 1) = stream[i+1] :: stream.drop (i + 2) :=
            List.drop_eq_getElem_cons hi1
          have hgd1 : stream.getD (i + 1) "" = stream[i+1] :=
            List.getD_eq_getElem stream "" hi1
          have hlt1 : i < stream.length - 1 := by omega
          rw [replacePairAux, if_pos hi, hdrop, hdrop1, replacePairSpec_cons2]
          by_cases hmatch : stream[i] = pair.left ∧ stream[i+1] = pair.right
          · rw [if_pos ⟨hlt1, hgd.trans hmatch.1, hgd1.trans hmatch.2⟩,
              if_pos hmatch, ih (i + 2) (by omega)]
          · have hcond : ¬ (i < stream.length - 1 ∧ stream.getD i "" = pair.left ∧
                stream.getD (i + 1) "" = pair.right) := by
              rintro ⟨-, h1, h2⟩
              exact hmatch ⟨hgd.symm.trans h1, hgd1.symm.trans h2⟩
            rw [if_neg hcond, if_neg hmatch, ih (i + 1) (by omega), hgd, hdrop1]
        · have hsing : stream.drop (i + 1) = [] :=
            List.drop_eq_nil_of_le (by omega)
          have hcond : ¬ (i < stream.length - 1 ∧ stream.getD i "" = pair.left ∧
              stream.getD (i + 1) "" = pair.right) := by
            rintro ⟨h1, -, -⟩
            omega
          rw [replacePairAux, if_pos hi, if_neg hcond, ih (i + 1) (by omega),
            hdrop, hsing, hgd]
          rfl
      · rw [List.drop_eq_nil_of_le (by omega)]
        rw [replacePairAux, if_neg hi]
        rfl

theorem replacePairSpec_replicate (a s : String) (f : Nat) (g : ℚ) :
    ∀ n, replacePairSpec ⟨a, a, f, g⟩ s (List.replicate n a) =
      List.replicate (n / 2) s ++ List.replicate (n % 2) a := by
  intro n
  induction n using Nat.strong_induction_on with
  | _ n ih =>
      match n with
      | 0 => rfl
      | 1 => rfl
      | m + 2 =>
          rw [show List.replicate (m + 2) a = a :: a :: List.replicate m a from rfl,
            replacePairSpec_cons2, if_pos ⟨rfl, rfl⟩, ih m (by omega)]
          rw [show (m + 2) / 2 = m / 2 + 1 by omega,
            show (m + 2) % 2 = m % 2 by omega]
          rfl

/-- C8: `replacePair` performs exactly the greedy left-to-right non-overlapping
replacement of the adjacent pair, leaving every other element in place (the
scan either consumes a matching pair, emitting the new symbol, or copies one
element, as the recursion equations state); when `left = right`, a run of the
repeated element is paired up non-overlapping from the left:
`replicate n a` becomes `n / 2` new symbols followed by `n % 2` leftovers. -/
theorem replacePair_matches_spec :
    (∀ (stream : List String) (pair : Pair) (newSymbol : String),
        replacePair stream pair newSymbol = replacePairSpec pair newSymbol stream) ∧
    (∀ (pair : Pair) (s w1 w2 : String) (rest : List String),
        replacePairSpec pair s [] = [] ∧
        replacePairSpec pair s [w1] = [w1] ∧
        replacePairSpec pair s (w1 :: w2 :: rest) =
          (if w1 = pair.left ∧ w2 = pair.right then s :: replacePairSpec pair s rest
           else w1 :: replacePairSpec pair s (w2 :: rest))) ∧
    (∀ (n : Nat) (a s : String) (f : Nat) (g : ℚ),
        replacePair (List.replicate n a) ⟨a, a, f, g⟩ s =
          List.replicate (n / 2) s ++ List.replicate (n % 2) a) := by
  have hmain : ∀ (stream : List String) (pair : Pair) (newSymbol : String),
      replacePair stream pair newSymbol = replacePairSpec pair newSymbol stream := by
    intro stream pair newSymbol
    rw [replacePair, replacePairAux_eq_spec stream pair newSymbol stream.length 0
      (by omega)]
    rfl
  refine ⟨hmain, fun pair s w1 w2 rest => ⟨rfl, rfl, replacePairSpec_cons2 pair s w1 w2 rest⟩,
    fun n a s f g => ?_⟩
  rw [hmain, replacePairSpec_replicate]

/-- One mined candidate (`Cand` in `minePhrases.ts`): `gain` can be negative
before the filter, so it is an integer. -/
structure Cand where
  phrase : List String
  count : Nat
  chars : Nat
  gain : Int
deriving DecidableEq, Repr

/-- `words.slice(i, i + n)` for `i = 0 .. words.length - n`: the inner
counting loop of `mine` (no iterations when `n > words.length`). -/
def sliceKeys (words : List String) (n : Nat) : List (List String) :=
  (List.range (words.length + 1 - n)).map (fun i => (words.drop i).take n)

/-- The n-gram counting loops of `mine`: an insertion-ordered frequency map
over `n = nMin .. nMax`. The source keys the map by the phrase joined with
U+0001; for tokens free of that control character this keying is in bijection
with the phrase itself, which is used as the key here. -/
def countNgrams (words : List String) (nMin nMax : Nat) : List (List String × Nat) :=
  ((List.range (nMax + 1 - nMin)).map (fun k => nMin + k)).foldl
    (fun freq n =>
      (sliceKeys words n).foldl
        (fun freq key => setA freq key ((lookupA freq key).getD 0 + 1)) freq)
    []

/-- Glyph-length estimate by rank among already-accepted candidates. -/
def glyphLenOf (rank : Nat) : Nat :=
  if rank < 82 then 2 else if rank < 82 + 82 * 82 then 3 else 4

/-- Body of the candidate-building loop of `mine`: benefit scoring with the
positive-gain filter; `candidates.push` appends at the end, and the rank used
for the glyph-length estimate is the number of candidates accepted so far. -/
def accStep (candidates : List Cand) (kv : List String × Nat) : List Cand :=
  let chars := (joinSpace kv.1).length
  let gain : Int := ((chars : Int) - glyphLenOf candidates.length) * kv.2
  if 0 < gain then candidates ++ [⟨kv.1, kv.2, chars, gain⟩] else candidates

/-- The candidate-building loop of `mine` over the frequency map entries. -/
def accumulateCands (freq : List (List String × Nat)) : List Cand :=
  freq.foldl accStep []

/-- Code-point lexicographic order on character lists: the model of
`localeCompare` on the space-joined phrases (locale-independent collation). -/
def lexLEb : List Char → List Char → Bool
  | [], _ => true
  | _ :: _, [] => false
  | c1 :: t1, c2 :: t2 => if c1 = c2 then lexLEb t1 t2 else decide (c1 < c2)

/-- The sort comparator of `mine` as a boolean "`a` comes no later than `b`":
gain descending, then phrase length descending, then lexicographic ascending
on the space-joined phrase. -/
def candLE (a b : Cand) : Bool :=
  if a.gain = b.gain then
    if a.phrase.length = b.phrase.length then
      lexLEb (joinSpace a.phrase).data (joinSpace b.phrase).data
    else decide (b.phrase.length < a.phrase.length)
  else decide (b.gain < a.gain)

/-- Insert an element into a `candLE`-sorted list, before the first element it
is not strictly after (so that, processing from the right, ties keep their
original relative order, as the stable `Array.prototype.sort` does). -/
def insertCand (c : Cand) : List Cand → List Cand
  | [] => [c]
  | d :: rest => if candLE c d then c :: d :: rest else d :: insertCand c rest

/-- Stable insertion sort by `candLE`: the model of the final
`candidates.sort(...)` call of `mine`. -/
def sortCands : List Cand → List Cand
  | [] => []
  | c :: rest => insertCand c (sortCands rest)

/-- `mine(words, nMin, nMax)` from `minePhrases.ts`. -/
def mine (words : List String) (nMin nMax : Nat) : List Cand :=
  sortCands (accumulateCands (countNgrams words nMin nMax))

/-- The 100-token input of the spec's repeated-bigram example:
`["x","y"]` repeated 50 times. -/
def xyWords : List String := (List.replicate 50 ["x", "y"]).flatten

/-- What the miner guarantees of the candidate accepted at rank `j`: its
`chars` field is the space-joined phrase length and its gain is
`(chars − glyphLength(j)) × count`, strictly positive. -/
def candProp (j : Nat) (c : Cand) : Prop :=
  c.chars = (joinSpace c.phrase).length ∧
  c.gain = ((c.chars : Int) - glyphLenOf j) * c.count ∧
  0 < c.gain

/-- Placeholder candidate for total indexing via `getD`. -/
def dummyCand : Cand := ⟨[], 0, 0, 0⟩

theorem accStep_invariant (acc : List Cand) (kv : List String × Nat)
    (h : ∀ j, j < acc.length → candProp j (acc.getD j dummyCand)) :
    ∀ j, j < (accStep acc kv).length →
      candProp j ((accStep acc kv).getD j dummyCand) := by
  intro j hj
  simp only [accStep] at hj ⊢
  by_cases hg : (0 : Int) < (((joinSpace kv.1).length : Int) -
      glyphLenOf acc.length) * kv.2
  · rw [if_pos hg] at hj ⊢
    rw [List.length_append, List.length_singleton] at hj
    by_cases hlt : j < acc.length
    · rw [List.getD_append _ _ _ _ hlt]
      exact h j hlt
    · have hje : j = acc.length := by omega
      subst hje
      rw [List.getD_append_right _ _ _ _ (le_refl _), Nat.sub_self]
      exact ⟨rfl, rfl, hg⟩
  · rw [if_neg hg] at hj ⊢
    exact h j hj

theorem accumulate_foldl_invariant :
    ∀ (freq : List (List String × Nat)) (acc : List Cand),
      (∀ j, j < acc.length → candProp j (acc.getD j dummyCand)) →
      ∀ j, j < (freq.foldl accStep acc).length →
        candProp j ((freq.foldl accStep acc).getD j dummyCand) := by
  intro freq
  induction freq with
  | nil => intro acc h j hj; exact h j hj
  | cons kv rest ih =>
      intro acc h
      rw [List.foldl_cons]
      exact ih (accStep acc kv) (accStep_invariant acc kv h)

theorem sliceKeys_nil (words : List String) (n : Nat) (h : words.length < n) :
    sliceKeys words n = [] := by
  rw [sliceKeys, show words.length + 1 - n = 0 by omega]
  rfl

theorem countNgrams_short (words : List String) (nMin nMax : Nat)
    (h : words.length < nMin) : countNgrams words nMin nMax = [] := by
  rw [countNgrams]
  have hall : ∀ (ns : List Nat), (∀ n ∈ ns, words.length < n) →
      ns.foldl (fun freq n =>
        (sliceKeys words n).foldl
          (fun freq key => setA freq key ((lookupA freq key).getD 0 + 1)) freq) [] = [] := by
    intro ns
    induction ns with
    | nil => intro _; rfl
    | cons n rest ih =>
        intro hmem
        rw [List.foldl_cons, sliceKeys_nil words n (hmem n (List.mem_cons_self n rest)),
          List.foldl_nil]
        exact ih (fun m hm => hmem m (List.mem_cons_of_mem n hm))
  refine hall _ ?_
  intro n hn
  rcases List.mem_map.mp hn with ⟨k, -, rfl⟩
  omega

theorem insertCand_perm (c : Cand) (l : List Cand) : (insertCand c l).Perm (c :: l) := by
  induction l with
  | nil => exact List.Perm.refl _
  | cons d rest ih =>
      rw [insertCand]
      by_cases hcd : candLE c d = true
      · rw [if_pos hcd]
      · rw [if_neg hcd]
        exact (ih.cons d).trans (List.Perm.swap c d rest)

theorem sortCands_perm (l : List Cand) : (sortCands l).Perm l := by
  induction l with
  | nil => exact List.Perm.refl _
  | cons c rest ih => exact (insertCand_perm c (sortCands rest)).trans (ih.cons c)

set_option maxRecDepth 4000 in
/-- C6: every accepted candidate satisfies the gain formula at its acceptance
rank — `chars` is the space-joined phrase length, `gain = (chars −
glyphLength(rank)) × count` with the 82 / 82+82² rank thresholds — and is
strictly positive; an input shorter than `nMin` yields no candidates; the
spec's repeated-bigram example `mine(["x","y"]*50, 2, 2)` yields the two
candidates `(["x","y"], 50, 3, 50)` and `(["y","x"], 49, 3, 49)` (the
overlapping reversed bigram also passes the filter), not exactly one. -/
theorem mine_gain_spec :
    (∀ (words : List String) (nMin nMax j : Nat)
        (hj : j < (accumulateCands (countNgrams words nMin nMax)).length),
        candProp j ((accumulateCands (countNgrams words nMin nMax)).get ⟨j, hj⟩)) ∧
    (∀ (words : List String) (nMin nMax : Nat), words.length < nMin →
        mine words nMin nMax = []) ∧
    (∀ (words : List String) (nMin nMax : Nat) (c : Cand),
        c ∈ mine words nMin nMax → 0 < c.gain) ∧
    mine xyWords 2 2 = [⟨["x", "y"], 50, 3, 50⟩, ⟨["y", "x"], 49, 3, 49⟩] := by
  have hinv : ∀ (words : List String) (nMin nMax j : Nat)
      (hj : j < (accumulateCands (countNgrams words nMin nMax)).length),
      candProp j ((accumulateCands (countNgrams words nMin nMax)).get ⟨j, hj⟩) := by
    intro words nMin nMax j hj
    have := accumulate_foldl_invariant (countNgrams words nMin nMax) []
      (fun j hj => absurd hj (by simp)) j hj
    rw [show List.foldl accStep [] (countNgrams words nMin nMax) =
      accumulateCands (countNgrams words nMin nMax) from rfl] at this
    rw [List.getD_eq_getElem _ _ hj] at this
    rw [List.get_eq_getElem]
    exact this
  refine ⟨hinv, ?_, ?_, ?_⟩
  · intro words nMin nMax h
    rw [mine, countNgrams_short words nMin nMax h]
    rfl
  · intro words nMin nMax c hc
    have hc2 : c ∈ accumulateCands (countNgrams words nMin nMax) :=
      (sortCands_perm _).mem_iff.mp hc
    rcases List.mem_iff_get.mp hc2 with ⟨⟨j, hj⟩, hget⟩
    have := (hinv words nMin nMax j hj).2.2
    rw [hget] at this
    exact this
  · decide

set_option maxRecDepth 4000 in
/-- C6 counterexample: the repeated-bigram example produces two candidates,
not exactly one. -/
theorem mine_bigram_cex : (mine xyWords 2 2).length = 2 := by decide

set_option maxRecDepth 4000 in
/-- Witness for C6 at concrete inputs: a one-word input is below `nMin = 2`
and yields nothing; the top repeated-bigram candidate has positive gain; and
the rank-0 accepted candidate of the example satisfies the gain formula. -/
theorem mine_gain_spec_wit :
    mine ["a"] 2 2 = [] ∧ (0 : Int) < (Cand.mk ["x", "y"] 50 3 50).gain ∧
      candProp 0 ((accumulateCands (countNgrams xyWords 2 2)).get ⟨0, by decide⟩) :=
  ⟨mine_gain_spec.2.1 ["a"] 2 2 (by decide),
   mine_gain_spec.2.2.1 xyWords 2 2 ⟨["x", "y"], 50, 3, 50⟩ (by decide),
   mine_gain_spec.1 xyWords 2 2 0 (by decide)⟩

theorem lexLEb_total : ∀ a b : List Char, lexLEb a b = true ∨ lexLEb b a = true := by
  intro a
  induction a with
  | nil => intro b; exact .inl rfl
  | cons c1 t1 ih =>
      intro b
      cases b with
      | nil => exact .inr rfl
      | cons c2 t2 =>
          rw [lexLEb, lexLEb]
          by_cases hc : c1 = c2
          · rw [if_pos hc, if_pos hc.symm]
            exact ih t2
          · rw [if_neg hc, if_neg (Ne.symm hc)]
            rcases lt_or_gt_of_ne hc with h | h
            · exact .inl (decide_eq_true h)
            · exact .inr (decide_eq_true h)

theorem lexLEb_trans :
    ∀ a b c : List Char, lexLEb a b = true → lexLEb b c = true → lexLEb a c = true := by
  intro a
  induction a with
  | nil => intro b c h1 h2; rfl
  | cons c1 t1 ih =>
      intro b c h1 h2
      cases b with
      | nil => simp [lexLEb] at h1
      | cons c2 t2 =>
          cases c with
          | nil => simp [lexLEb] at h2
          | cons c3 t3 =>
              rw [lexLEb] at h1 h2 ⊢
              by_cases h12 : c1 = c2
              · rw [if_pos h12] at h1
                by_cases h23 : c2 = c3
                · rw [if_pos h23] at h2
                  rw [if_pos (h12.trans h23)]
                  exact ih t2 t3 h1 h2
                · rw [if_neg h23] at h2
                  have hlt : c2 < c3 := of_decide_eq_true h2
                  have h13 : ¬ c1 = c3 := fun he => h23 (h12.symm.trans he)
                  rw [if_neg h13]
                  exact decide_eq_true (h12 ▸ hlt)
              · rw [if_neg h12] at h1
                have hlt1 : c1 < c2 := of_decide_eq_true h1
                by_cases h23 : c2 = c3
                · have h13 : ¬ c1 = c3 := fun he => h12 (he.trans h23.symm)
                  rw [if_neg h13]
                  exact decide_eq_true (h23 ▸ hlt1)
                · rw [if_neg h23] at h2
                  have hlt3 : c1 < c3 := lt_trans hlt1 (of_decide_eq_true h2)
                  rw [if_neg (ne_of_lt hlt3)]
                  exact decide_eq_true hlt3

theorem lexLEb_antisymm :
    ∀ a b : List Char, lexLEb a b = true → lexLEb b a = true → a = b := by
  intro a
  induction a with
  | nil =>
      intro b h1 h2
      cases b with
      | nil => rfl
      | cons c2 t2 => simp [lexLEb] at h2
  | cons c1 t1 ih =>
      intro b h1 h2
      cases b with
      | nil => simp [lexLEb] at h1
      | cons c2 t2 =>
          rw [lexLEb] at h1 h2
          by_cases hc : c1 = c2
          · rw [if_pos hc] at h1
            rw [if_pos hc.symm] at h2
            rw [hc, ih t2 h1 h2]
          · rw [if_neg hc] at h1
            rw [if_neg (Ne.symm hc)] at h2
            exact absurd (of_decide_eq_true h1) (asymm (of_decide_eq_true h2))

theorem candLE_iff (a b : Cand) : candLE a b = true ↔
    (b.gain < a.gain ∨ (a.gain = b.gain ∧ (b.phrase.length < a.phrase.length ∨
      (a.phrase.length = b.phrase.length ∧
        lexLEb (joinSpace a.phrase).data (joinSpace b.phrase).data = true)))) := by
  rw [candLE]
  by_cases hg : a.gain = b.gain
  · rw [if_pos hg]
    by_cases hl : a.phrase.length = b.phrase.length
    · rw [if_pos hl]
      constructor
      · intro h
        exact .inr ⟨hg, .inr ⟨hl, h⟩⟩
      · rintro (h | ⟨-, h | ⟨-, h⟩⟩)
        · exact absurd h (by omega)
        · exact absurd h (by omega)
        · exact h
    · rw [if_neg hl]
      constructor
      · intro h
        exact .inr ⟨hg, .inl (of_decide_eq_true h)⟩
      · rintro (h | ⟨-, h | ⟨hle, -⟩⟩)
        · exact absurd h (by omega)
        · exact decide_eq_true h
        · exact absurd hle hl
  · rw [if_neg hg]
    constructor
    · intro h
      exact .inl (of_decide_eq_true h)
    · rintro (h | ⟨he, -⟩)
      · exact decide_eq_true h
      · exact absurd he hg

/-- The key the comparator actually orders by: gain, phrase length, and the
space-joined phrase string. -/
def candKeyEq (a b : Cand) : Prop :=
  a.gain = b.gain ∧ a.phrase.length = b.phrase.length ∧
    joinSpace a.phrase = joinSpace b.phrase

instance (a b : Cand) : Decidable (candKeyEq a b) :=
  decidable_of_iff (a.gain = b.gain ∧ a.phrase.length = b.phrase.length ∧
    joinSpace a.phrase = joinSpace b.phrase) Iff.rfl

theorem candLE_total_lemma (a b : Cand) : candLE a b = true ∨ candLE b a = true := by
  rw [candLE_iff, candLE_iff]
  rcases lt_trichotomy a.gain b.gain with h | h | h
  · exact .inr (.inl h)
  · rcases lt_trichotomy a.phrase.length b.phrase.length with h2 | h2 | h2
    · exact .inr (.inr ⟨h.symm, .inl h2⟩)
    · rcases lexLEb_total (joinSpace a.phrase).data (joinSpace b.phrase).data with h3 | h3
      · exact .inl (.inr ⟨h, .inr ⟨h2, h3⟩⟩)
      · exact .inr (.inr ⟨h.symm, .inr ⟨h2.symm, h3⟩⟩)
    · exact .inl (.inr ⟨h, .inl h2⟩)
  · exact .inl (.inl h)

theorem candLE_trans_lemma (a b c : Cand) (h1 : candLE a b = true)
    (h2 : candLE b c = true) : candLE a c = true := by
  rw [candLE_iff] at h1 h2 ⊢
  rcases h1 with h1 | ⟨hg1, h1'⟩
  · rcases h2 with h2 | ⟨hg2, -⟩
    · exact .inl (by omega)
    · exact .inl (by omega)
  · rcases h2 with h2 | ⟨hg2, h2'⟩
    · exact .inl (by omega)
    · refine .inr ⟨hg1.trans hg2, ?_⟩
      rcases h1' with h1' | ⟨hl1, hx1⟩
      · rcases h2' with h2' | ⟨hl2, -⟩
        · exact .inl (by omega)
        · exact .inl (by omega)
      · rcases h2' with h2' | ⟨hl2, hx2⟩
        · exact .inl (by omega)
        · exact .inr ⟨hl1.trans hl2, lexLEb_trans _ _ _ hx1 hx2⟩

theorem string_data_eq {s t : String} (h : s.data = t.data) : s = t := by
  cases s
  cases t
  exact congrArg String.mk (by simpa using h)

theorem candLE_antisymm_key (a b : Cand) (h1 : candLE a b = true)
    (h2 : candLE b a = true) : candKeyEq a b := by
  rw [candLE_iff] at h1 h2
  rcases h1 with h1 | ⟨hg1, h1'⟩
  · rcases h2 with h2 | ⟨hg2, -⟩
    · exact absurd h1 (by omega)
    · exact absurd h1 (by omega)
  · rcases h2 with h2 | ⟨hg2, h2'⟩
    · exact absurd h2 (by omega)
    · refine ⟨hg1, ?_⟩
      rcases h1' with h1' | ⟨hl1, hx1⟩
      · rcases h2' with h2' | ⟨hl2, -⟩
        · exact absurd h1' (by omega)
        · exact absurd h1' (by omega)
      · rcases h2' with h2' | ⟨hl2, hx2⟩
        · exact absurd h2' (by omega)
        · exact ⟨hl1, string_data_eq (lexLEb_antisymm _ _ hx1 hx2)⟩

theorem mem_insertCand {c d : Cand} {l : List Cand} (h : d ∈ insertCand c l) :
    d = c ∨ d ∈ l := by
  have := (insertCand_perm c l).mem_iff.mp h
  simpa using this

theorem pairwise_insertCand (c : Cand) (l : List Cand)
    (h : l.Pairwise (fun a b => candLE a b = true)) :
    (insertCand c l).Pairwise (fun a b => candLE a b = true) := by
  induction l with
  | nil => simp [insertCand]
  | cons d rest ih =>
      rw [insertCand]
      rcases List.pairwise_cons.mp h with ⟨hd, hrest⟩
      by_cases hcd : candLE c d = true
      · rw [if_pos hcd]
        refine List.pairwise_cons.mpr ⟨?_, h⟩
        intro e he
        rcases List.mem_cons.mp he with rfl | he'
        · exact hcd
        · exact candLE_trans_lemma c d e hcd (hd e he')
      · rw [if_neg hcd]
        have hdc : candLE d c = true := (candLE_total_lemma c d).resolve_left hcd
        refine List.pairwise_cons.mpr ⟨?_, ih hrest⟩
        intro e he
        rcases mem_insertCand he with rfl | he'
        · exact hdc
        · exact hd e he'

theorem pairwise_sortCands (l : List Cand) :
    (sortCands l).Pairwise (fun a b => candLE a b = true) := by
  induction l with
  | nil => exact List.Pairwise.nil
  | cons c rest ih => exact pairwise_insertCand c (sortCands rest) ih

theorem sorted_perm_unique :
    ∀ (l₁ l₂ : List Cand), l₁.Pairwise (fun a b => candLE a b = true) →
      l₂.Pairwise (fun a b => candLE a b = true) → l₁.Perm l₂ →
      l₁.Pairwise (fun a b => ¬ candKeyEq a b) → l₁ = l₂ := by
  intro l₁
  induction l₁ with
  | nil =>
      intro l₂ _ _ hp _
      exact (List.Perm.eq_nil hp.symm).symm
  | cons a t₁ ih =>
      intro l₂ hs1 hs2 hp hdist
      cases l₂ with
      | nil => exact absurd (List.Perm.eq_nil hp) (by simp)
      | cons b t₂ =>
          have hab : a = b := by
            rcases List.mem_cons.mp (hp.mem_iff.mp (List.mem_cons_self a t₁)) with h | hat2
            · exact h
            · have hba : candLE b a = true := (List.pairwise_cons.mp hs2).1 a hat2
              rcases List.mem_cons.mp (hp.symm.mem_iff.mp (List.mem_cons_self b t₂)) with
                h | hbt1
              · exact h.symm
              · have hab' : candLE a b = true := (List.pairwise_cons.mp hs1).1 b hbt1
                exact absurd (candLE_antisymm_key a b hab' hba)
                  ((List.pairwise_cons.mp hdist).1 b hbt1)
          subst hab
          rw [ih t₂ (List.pairwise_cons.mp hs1).2 (List.pairwise_cons.mp hs2).2
            hp.cons_inv (List.pairwise_cons.mp hdist).2]

/-- C9: the mined candidate list is sorted by the comparator — gain
descending, then phrase length descending, then lexicographic ascending on
the space-joined phrase — and is a permutation of the accepted candidates;
the comparator is total and transitive, but antisymmetric only up to the
(gain, length, joined-phrase) key: two distinct candidates can compare equal
both ways, so the comparator pins the output order down exactly when those
keys are pairwise distinct in the output (otherwise the order comes from sort
stability, not from the comparator). -/
theorem mine_sorted_spec :
    (∀ (words : List String) (nMin nMax : Nat),
        (mine words nMin nMax).Pairwise (fun a b => candLE a b = true)) ∧
    (∀ (words : List String) (nMin nMax : Nat),
        (mine words nMin nMax).Perm (accumulateCands (countNgrams words nMin nMax))) ∧
    (∀ a b : Cand, candLE a b = true ∨ candLE b a = true) ∧
    (∀ a b c : Cand, candLE a b = true → candLE b c = true → candLE a c = true) ∧
    (∀ a b : Cand, candLE a b = true → candLE b a = true → candKeyEq a b) ∧
    (∀ (words : List String) (nMin nMax : Nat) (l₂ : List Cand),
        l₂.Pairwise (fun a b => candLE a b = true) →
        (mine words nMin nMax).Perm l₂ →
        (mine words nMin nMax).Pairwise (fun a b => ¬ candKeyEq a b) →
        mine words nMin nMax = l₂) := by
  refine ⟨fun words nMin nMax => pairwise_sortCands _,
    fun words nMin nMax => sortCands_perm _,
    candLE_total_lemma, candLE_trans_lemma, candLE_antisymm_key,
    fun words nMin nMax l₂ hs2 hp hdist => ?_⟩
  exact sorted_perm_unique (mine words nMin nMax) l₂ (pairwise_sortCands _) hs2 hp hdist

set_option maxRecDepth 4000 in
/-- C9 counterexample: with space-containing tokens, two distinct candidates
tie under the comparator in both directions (equal gain, equal length, equal
space-joined phrase), so the comparator does not totally order distinct
candidates: a transposed, equally-sorted permutation differs from the actual
output, whose order is fixed by sort stability instead. -/
theorem mine_sort_tie_cex :
    mine ["a b", "c", "a", "b c"] 2 2 =
      [⟨["a b", "c"], 1, 5, 3⟩, ⟨["a", "b c"], 1, 5, 3⟩, ⟨["c", "a"], 1, 3, 1⟩] ∧
    candLE ⟨["a b", "c"], 1, 5, 3⟩ ⟨["a", "b c"], 1, 5, 3⟩ = true ∧
    candLE ⟨["a", "b c"], 1, 5, 3⟩ ⟨["a b", "c"], 1, 5, 3⟩ = true ∧
    (⟨["a b", "c"], 1, 5, 3⟩ : Cand) ≠ ⟨["a", "b c"], 1, 5, 3⟩ ∧
    ([⟨["a", "b c"], 1, 5, 3⟩, ⟨["a b", "c"], 1, 5, 3⟩,
        ⟨["c", "a"], 1, 3, 1⟩] : List Cand).Pairwise (fun a b => candLE a b = true) ∧
    ([⟨["a", "b c"], 1, 5, 3⟩, ⟨["a b", "c"], 1, 5, 3⟩,
        ⟨["c", "a"], 1, 3, 1⟩] : List Cand) ≠ mine ["a b", "c", "a", "b c"] 2 2 := by
  refine ⟨by decide, by decide, by decide, by decide, ?_, by decide⟩
  simp only [List.pairwise_cons, List.mem_cons, List.not_mem_nil]
  refine ⟨?_, ?_, ?_⟩
  · rintro a (rfl | rfl | h)
    · decide
    · decide
    · exact absurd h (by simp)
  · rintro a (rfl | h)
    · decide
    · exact absurd h (by simp)
  · simp

set_option maxRecDepth 4000 in
/-- Witness for C9 at concrete inputs: transitivity and key-antisymmetry of
the comparator on concrete candidates, and uniqueness of the sorted output on
a two-word input whose single candidate has a unique key. -/
theorem mine_sorted_spec_wit :
    candLE ⟨["a"], 3, 1, 3⟩ ⟨["c"], 1, 1, 1⟩ = true ∧
    candKeyEq ⟨["a"], 1, 1, 1⟩ ⟨["a"], 1, 1, 1⟩ ∧
    mine ["p", "q"] 2 2 = [⟨["p", "q"], 1, 3, 1⟩] :=
  ⟨mine_sorted_spec.2.2.2.1 ⟨["a"], 3, 1, 3⟩ ⟨["b"], 2, 1, 2⟩ ⟨["c"], 1, 1, 1⟩
      (by decide) (by decide),
   mine_sorted_spec.2.2.2.2.1 ⟨["a"], 1, 1, 1⟩ ⟨["a"], 1, 1, 1⟩ (by decide) (by decide),
   mine_sorted_spec.2.2.2.2.2 ["p", "q"] 2 2 [⟨["p", "q"], 1, 3, 1⟩]
      (by simp [List.pairwise_cons])
      (by decide)
      (by
        rw [show mine ["p", "q"] 2 2 = [⟨["p", "q"], 1, 3, 1⟩] from by decide]
        simp [List.pairwise_cons])⟩

end FractalTape
